import Mathlib

/-!
Verification of the active-set QP solver core (`conic_activeset.cpp`).

The kernels `casadi_qp_*` and the driver `eval` are embedded shallowly:
* scalars are `ℚ` (the C code uses `double`; all claims under study are about
  sign logic, comparisons and exact linear updates, which `ℚ` models exactly);
* bound vectors may hold `±∞`, modelled by the extended type `ER` whose
  comparison and arithmetic operations mirror IEEE-754 behaviour on infinities
  (no NaN arises in the guarded uses of the kernels);
* numeric work vectors are total functions `ℕ → ℚ`;
* the sparse-linear-algebra collaborators (`casadi_mv`, `casadi_bilin`,
  `casadi_dot`, `casadi_trans`, and the sparse QR family) live outside this
  repository; following the specification they are modelled denotationally
  (matrix products as sums over the CSC pattern) or kept abstract as oracle
  functions (`QrOracle`);
* the one out-of-bounds memory access reachable in `casadi_qp_scale_step`
  is modelled by an `Option` result (`none` = undefined behaviour).
-/

/-- Extended rationals: the value space of the bound vectors `lbz`, `ubz`,
which may contain `±∞`.  Mirrors IEEE doubles restricted to non-NaN values. -/
inductive ER : Type where
  | ninf : ER
  | fin : ℚ → ER
  | pinf : ER
deriving DecidableEq

/-- IEEE-style strict comparison on extended values. -/
def ER.blt : ER → ER → Bool
  | ER.ninf, ER.ninf => false
  | ER.ninf, _ => true
  | ER.fin _, ER.ninf => false
  | ER.fin a, ER.fin b => decide (a < b)
  | ER.fin _, ER.pinf => true
  | ER.pinf, _ => false

/-- IEEE-style non-strict comparison (no NaN, so `a ≤ b ↔ ¬ b < a`). -/
def ER.ble (a b : ER) : Bool := !(ER.blt b a)

/-- Add a finite value to an extended value (IEEE: `±∞ + q = ±∞`). -/
def ER.addQ : ER → ℚ → ER
  | ER.ninf, _ => ER.ninf
  | ER.pinf, _ => ER.pinf
  | ER.fin a, q => ER.fin (a + q)

/-- Subtract a finite value from an extended value. -/
def ER.subQ (e : ER) (q : ℚ) : ER := e.addQ (-q)

/-- `q - e` for finite `q`, extended `e`. -/
def ER.qsub : ℚ → ER → ER
  | _, ER.ninf => ER.pinf
  | _, ER.pinf => ER.ninf
  | q, ER.fin a => ER.fin (q - a)

/-- The C `isinf` predicate (true on both infinities). -/
def ER.isinfB : ER → Bool
  | ER.fin _ => false
  | _ => true

/-- Finite part of an extended value.  Every use in the embedding is guarded
by a comparison that forces the argument to be finite whenever the guarding
branch is taken on inputs accepted by the solver. -/
def ER.finPart : ER → ℚ
  | ER.fin q => q
  | _ => 0

/-- A CSC sparsity pattern: number of columns, column offsets, row indices.
Mirrors the `casadi_int*` layout `{nrow, ncol, colind..., row...}` with the
two leading dimensions dropped (`nrow` is never read by the kernels). -/
structure Sp : Type where
  ncol : ℕ
  colind : ℕ → ℕ
  rowidx : ℕ → ℕ

/-- The list of nonzero positions of column `c`. -/
def Sp.colKs (sp : Sp) (c : ℕ) : List ℕ :=
  List.range' (sp.colind c) (sp.colind (c+1) - sp.colind c)

/-- Dense entry `(r, c)` of a CSC matrix: sum of the stored nonzeros of
column `c` whose row index is `r` (a singleton or empty sum for valid
patterns). -/
def cscEntry (sp : Sp) (nz : ℕ → ℚ) (r c : ℕ) : ℚ :=
  (sp.colKs c).foldl (fun s k => if sp.rowidx k = r then s + nz k else s) 0

/-- Modelled from the spec: `casadi_mv(a, sp_a, x, y, 0)` (external sparse
primitive), row `r` of the product `A·x` for a CSC matrix `A`. -/
def cscMvRow (sp : Sp) (nz : ℕ → ℚ) (x : ℕ → ℚ) (r : ℕ) : ℚ :=
  ((List.range sp.ncol).map (fun c =>
    (sp.colKs c).foldl (fun s k => if sp.rowidx k = r then s + nz k * x c else s) 0)).sum

/-- Modelled from the spec: `casadi_mv(a, sp_a, x, y, 1)` (external sparse
primitive), entry `c` of the transposed product `Aᵀ·x`. -/
def cscMvTCol (sp : Sp) (nz : ℕ → ℚ) (x : ℕ → ℚ) (c : ℕ) : ℚ :=
  (sp.colKs c).foldl (fun s k => s + nz k * x (sp.rowidx k)) 0

/-- Modelled from the spec: `casadi_bilin(h, sp_h, x, y)` (external sparse
primitive), the bilinear form `xᵀ H y`. -/
def cscBilin (sp : Sp) (nz : ℕ → ℚ) (x y : ℕ → ℚ) : ℚ :=
  ((List.range sp.ncol).map (fun c =>
    (sp.colKs c).foldl (fun s k => s + x (sp.rowidx k) * nz k * y c) 0)).sum

/-- Modelled from the spec: `casadi_dot(n, x, y)` (external primitive). -/
def qDot (n : ℕ) (x y : ℕ → ℚ) : ℚ :=
  ((List.range n).map (fun i => x i * y i)).sum

/-- The column of a CSC pattern containing nonzero position `k`. -/
def Sp.colOf (sp : Sp) (k : ℕ) : ℕ :=
  (((List.range sp.ncol).filter
    (fun c => decide (sp.colind c ≤ k) && decide (k < sp.colind (c+1))))).headD 0

/-- Modelled from the spec: `casadi_trans(x, sp_x, y, sp_y, iw)` (external
primitive).  Nonzero `k` of the transposed matrix (pattern `spTo`) sits at
row `spTo.rowidx k`, column `spTo.colOf k`, and holds the entry of the source
matrix at the transposed position. -/
def cscTransNz (spFrom : Sp) (nz : ℕ → ℚ) (spTo : Sp) : ℕ → ℚ :=
  fun k => cscEntry spFrom nz (spTo.colOf k) (spTo.rowidx k)

/-- The problem-data / layout part of `casadi_qp_mem` (fields that the
kernels only read): dimensions, sparsity patterns, matrix nonzeros, bounds,
permitted-sign masks and the scalar options. -/
structure QpData : Type where
  nx : ℕ
  na : ℕ
  sp_h : Sp
  nz_h : ℕ → ℚ
  sp_a : Sp
  nz_a : ℕ → ℚ
  sp_at : Sp
  nz_at : ℕ → ℚ
  sp_kkt : Sp
  g : ℕ → ℚ
  lbz : ℕ → ER
  ubz : ℕ → ER
  neverzero : ℕ → Bool
  neverupper : ℕ → Bool
  neverlower : ℕ → Bool
  dmin : ℚ
  du_to_pr : ℚ

/-- `nz` in the C struct: the stacked dimension `nx + na`. -/
def QpData.nzdim (p : QpData) : ℕ := p.nx + p.na

/-- The mutable part of `casadi_qp_mem`: iterate, step, residuals, KKT
nonzeros, QR factors and the scalar status fields.  The scratch vectors
`w`/`iw` are threaded locally through each kernel instead of being stored. -/
structure QpState : Type where
  z : ℕ → ℚ
  lam : ℕ → ℚ
  dz : ℕ → ℚ
  dlam : ℕ → ℚ
  infeas : ℕ → ℚ
  tinfeas : ℕ → ℚ
  nz_kkt : ℕ → ℚ
  nz_v : ℕ → ℚ
  nz_r : ℕ → ℚ
  beta : ℕ → ℚ
  f : ℚ
  pr : ℚ
  du : ℚ
  tau : ℚ
  mina : ℚ
  ipr : ℤ
  idu : ℤ
  imina : ℤ
  sing : ℤ

/-- The external sparse QR collaborator (`casadi_qr`, `casadi_qr_solve`,
`casadi_qr_singular`, `casadi_qr_colcomb`), kept abstract: each routine is a
deterministic function of the numeric inputs it reads (the symbolic patterns
and permutations are fixed per problem and folded into the oracle). -/
structure QrOracle : Type where
  qr : (ℕ → ℚ) → ((ℕ → ℚ) × (ℕ → ℚ) × (ℕ → ℚ))
  qrSingular : (ℕ → ℚ) → (ℤ × ℚ × ℤ)
  qrSolve : (ℕ → ℚ) → (ℕ → ℚ) → (ℕ → ℚ) → Bool → (ℕ → ℚ) → (ℕ → ℚ)
  qrColcomb : (ℕ → ℚ) → ℤ → ℕ → (ℕ → ℚ)

/-- Hard-coded threshold `1e-12` (rank decisions). -/
def eps12 : ℚ := 1 / 1000000000000

/-- Hard-coded threshold `1e-14` (step snapping). -/
def eps14 : ℚ := 1 / 100000000000000

/-- Hard-coded threshold `1e-16` (zero tests on `tau`). -/
def eps16 : ℚ := 1 / 10000000000000000

/-- The maximum scan of `casadi_qp_pr`: running pair (violation, witness).
The stored violation uses the finite part of the bound, which the strict
comparison guarantees on inputs with `lbz ≤ ubz` accepted by
initialization. -/
def qp_prAcc (p : QpData) (z : ℕ → ℚ) : ℚ × ℤ :=
  (List.range p.nzdim).foldl (fun (acc : ℚ × ℤ) i =>
    if ER.blt ((p.ubz i).addQ acc.1) (ER.fin (z i)) then
      (z i - (p.ubz i).finPart, (i : ℤ))
    else if ER.blt (ER.fin (z i)) ((p.lbz i).subQ acc.1) then
      ((p.lbz i).finPart - z i, (i : ℤ))
    else acc) (0, -1)

/-- `casadi_qp_pr`: largest bound violation of `z` and its witness index. -/
def casadi_qp_pr (p : QpData) (st : QpState) : QpState :=
  { st with pr := (qp_prAcc p st.z).1, ipr := (qp_prAcc p st.z).2 }

/-- The maximum scan of `casadi_qp_du`. -/
def qp_duAcc (p : QpData) (infeas : ℕ → ℚ) : ℚ × ℤ :=
  (List.range p.nx).foldl (fun (acc : ℚ × ℤ) i =>
    if infeas i > acc.1 then (infeas i, (i : ℤ))
    else if infeas i < -acc.1 then (-infeas i, (i : ℤ))
    else acc) (0, -1)

/-- `casadi_qp_du`: largest dual infeasibility and its witness index. -/
def casadi_qp_du (p : QpData) (st : QpState) : QpState :=
  { st with du := (qp_duAcc p st.infeas).1, idu := (qp_duAcc p st.infeas).2 }

/-- The value of `z[nx..nx+na)` recomputed in `casadi_qp_calc_dependent`:
`z[nx:] ← A · z[:nx]` (fill with zero, then `casadi_mv`). -/
def qp_z1 (p : QpData) (st : QpState) : ℕ → ℚ :=
  fun i => if p.nx ≤ i ∧ i < p.nzdim then cscMvRow p.sp_a p.nz_a st.z (i - p.nx) else st.z i

/-- The Lagrangian gradient computed in `casadi_qp_calc_dependent` before the
bound-multiplier fold-in: `infeas ← g + H·z + Aᵀ·lam[nx:]`. -/
def qp_infeas0 (p : QpData) (st : QpState) (z1 : ℕ → ℚ) : ℕ → ℚ :=
  fun i => if i < p.nx then
    p.g i + cscMvRow p.sp_h p.nz_h z1 i
      + cscMvTCol p.sp_a p.nz_a (fun r => st.lam (p.nx + r)) i
  else st.infeas i

/-- The sign-preserving clamp of the bound multipliers in
`casadi_qp_calc_dependent` (loop body for `i < nx`). -/
def qp_lam1 (p : QpData) (st : QpState) (infeas0 : ℕ → ℚ) : ℕ → ℚ :=
  fun i => if i < p.nx then
    (if st.lam i > 0 then max (-infeas0 i) p.dmin
     else if st.lam i < 0 then min (-infeas0 i) (-p.dmin)
     else st.lam i)
  else st.lam i

/-- `casadi_qp_calc_dependent`: recompute `f`, `z[nx:]`, the Lagrangian
gradient, the clamped bound multipliers, the folded-in dual infeasibility and
the primal/dual error scalars with witnesses. -/
def casadi_qp_calc_dependent (p : QpData) (st : QpState) : QpState :=
  let f := cscBilin p.sp_h p.nz_h st.z st.z / 2 + qDot p.nx st.z p.g
  let z1 := qp_z1 p st
  let infeas0 := qp_infeas0 p st z1
  let lam1 := qp_lam1 p st infeas0
  let infeas1 : ℕ → ℚ := fun i => if i < p.nx then infeas0 i + lam1 i else infeas0 i
  let st1 : QpState :=
    { st with f := f, z := z1, infeas := infeas1, lam := lam1 }
  casadi_qp_du p (casadi_qp_pr p st1)

/-- `casadi_qp_du_check`: largest dual infeasibility that would result from
setting `lam[i] = 0`. -/
def casadi_qp_du_check (p : QpData) (st : QpState) (i : ℕ) : ℚ :=
  if i < p.nx then |st.infeas i - st.lam i|
  else (p.sp_at.colKs (i - p.nx)).foldl
    (fun s k => max s |st.infeas (p.sp_at.rowidx k) - p.nz_at k * st.lam i|) 0

/-- `casadi_qp_pr_index`: candidate constraint to activate to reduce `|pr|`,
with its sign.  The C reads `lam[ipr]`; the callers only reach it with
`ipr ≥ 0`, and the `ipr < 0` case is mapped to the no-candidate result. -/
def casadi_qp_pr_index (p : QpData) (st : QpState) : ℤ × ℤ :=
  if 0 ≤ st.ipr ∧ st.lam st.ipr.toNat = 0 then
    (st.ipr, if ER.blt (ER.fin (st.z st.ipr.toNat)) (p.lbz st.ipr.toNat) then -1 else 1)
  else (-1, 0)

/-- `casadi_qp_du_index`: candidate constraint to deactivate to reduce `|du|`
(the returned sign is always 0).  The C reads `infeas[idu]`; the callers only
reach it with `idu ≥ 0`, and `idu < 0` is mapped to the no-candidate result. -/
def casadi_qp_du_index (p : QpData) (st : QpState) : ℤ :=
  if 0 ≤ st.idu then
    let w0 : ℕ → ℚ := fun j =>
      if j = st.idu.toNat then (if st.infeas st.idu.toNat > 0 then -1 else 1) else 0
    let w : ℕ → ℚ := fun j =>
      if p.nx ≤ j ∧ j < p.nzdim then w0 j + cscMvRow p.sp_a p.nz_a w0 (j - p.nx) else w0 j
    let best := (List.range p.nzdim).foldl (fun (acc : ℤ × ℚ) i =>
      if w i = 0 then acc
      else if (if w i > 0 then st.lam i ≥ 0 else st.lam i ≤ 0) then acc
      else if casadi_qp_du_check p st i > st.du then acc
      else if |w i| > acc.2 then ((i : ℤ), |w i|) else acc) (-1, 0)
    best.1
  else -1

/-- Pointwise functional update of a work vector. -/
def updQ (f : ℕ → ℚ) (j : ℕ) (v : ℚ) : ℕ → ℚ := fun j' => if j' = j then v else f j'

/-- Scatter the nonzeros of one CSC column into a dense work vector:
`for k in col c: w[pos k] = val k`. -/
def scatterCol (ks : List ℕ) (pos : ℕ → ℕ) (val : ℕ → ℚ) (w : ℕ → ℚ) : ℕ → ℚ :=
  ks.foldl (fun acc k => updQ acc (pos k) (val k)) w

/-- The body of the row loop of `casadi_qp_kkt`: scatter row `i` of the
activity-dependent KKT matrix into the dense work vector `w`. -/
def qp_kkt_row_w (p : QpData) (lam : ℕ → ℚ) (i : ℕ) (w : ℕ → ℚ) : ℕ → ℚ :=
  if i < p.nx then
    if lam i = 0 then
      scatterCol (p.sp_a.colKs i) (fun k => p.nx + p.sp_a.rowidx k) p.nz_a
        (scatterCol (p.sp_h.colKs i) (fun k => p.sp_h.rowidx k) p.nz_h w)
    else updQ w i 1
  else
    if lam i = 0 then updQ w i (-1)
    else scatterCol (p.sp_at.colKs (i - p.nx)) (fun k => p.sp_at.rowidx k) p.nz_at w

/-- One gather step of `casadi_qp_kkt`: `nz_kkt[k] = w[row k]; w[row k] = 0`. -/
def gatherF (ridx : ℕ → ℕ) (a : (ℕ → ℚ) × (ℕ → ℚ)) (k : ℕ) : (ℕ → ℚ) × (ℕ → ℚ) :=
  (updQ a.1 k (a.2 (ridx k)), updQ a.2 (ridx k) 0)

/-- The gather part of the row loop of `casadi_qp_kkt`: copy the work vector
into the KKT nonzeros of column `i`, zeroing the work vector as it goes. -/
def qp_kkt_gather (p : QpData) (i : ℕ) (a : (ℕ → ℚ) × (ℕ → ℚ)) : (ℕ → ℚ) × (ℕ → ℚ) :=
  (p.sp_kkt.colKs i).foldl (gatherF p.sp_kkt.rowidx) a

/-- `casadi_qp_kkt`: assemble the numeric KKT matrix row by row into the
fixed symbolic pattern via scatter/gather on a zeroed work vector. -/
def casadi_qp_kkt (p : QpData) (st : QpState) : QpState :=
  let res := (List.range p.nzdim).foldl
    (fun (a : (ℕ → ℚ) × (ℕ → ℚ)) i => qp_kkt_gather p i (a.1, qp_kkt_row_w p st.lam i a.2))
    (st.nz_kkt, fun _ => 0)
  { st with nz_kkt := res.1 }

/-- `casadi_qp_kkt_column`: dense column `i` of the KKT matrix under the
hypothetical activity `sign` for index `i`. -/
def casadi_qp_kkt_column (p : QpData) (i : ℕ) (sign : ℤ) : ℕ → ℚ :=
  if i < p.nx then
    if sign = 0 then
      scatterCol (p.sp_a.colKs i) (fun k => p.nx + p.sp_a.rowidx k) p.nz_a
        (scatterCol (p.sp_h.colKs i) (fun k => p.sp_h.rowidx k) p.nz_h (fun _ => 0))
    else updQ (fun _ => 0) i 1
  else
    if sign = 0 then updQ (fun _ => 0) i (-1)
    else scatterCol (p.sp_at.colKs (i - p.nx)) (fun k => p.sp_at.rowidx k) p.nz_at (fun _ => 0)

/-- `casadi_qp_kkt_dot`: `vᵀ · K[:,i]` under hypothetical activity `sign`,
without materializing the column. -/
def casadi_qp_kkt_dot (p : QpData) (v : ℕ → ℚ) (i : ℕ) (sign : ℤ) : ℚ :=
  if i < p.nx then
    if sign = 0 then
      (p.sp_h.colKs i).foldl (fun s k => s + v (p.sp_h.rowidx k) * p.nz_h k) 0
        + (p.sp_a.colKs i).foldl (fun s k => s + v (p.nx + p.sp_a.rowidx k) * p.nz_a k) 0
    else v i
  else
    if sign = 0 then -(v i)
    else (p.sp_at.colKs (i - p.nx)).foldl (fun s k => s + v (p.sp_at.rowidx k) * p.nz_at k) 0

/-- `casadi_qp_kkt_residual`: the negative KKT residual, written into `dz`.
The bound differences are finite whenever the guarding sign of `lam`
satisfies the permitted-sign invariant. -/
def casadi_qp_kkt_residual (p : QpData) (st : QpState) : ℕ → ℚ :=
  fun i =>
    if i < p.nzdim then
      (if st.lam i > 0 then ((p.ubz i).subQ (st.z i)).finPart
       else if st.lam i < 0 then ((p.lbz i).subQ (st.z i)).finPart
       else if i < p.nx then st.lam i - st.infeas i
       else st.lam i)
    else st.dz i

/-- `casadi_qp_zero_blocking`: violated-at-`tau = 0` test.  Returns
(hit, index, sign).  The local `dz_max` of the C code is initialized to zero
and never updated, so it is embedded as the constant 0. -/
def casadi_qp_zero_blocking (p : QpData) (st : QpState) (e : ℚ) : Bool × ℤ × ℤ :=
  (List.range p.nzdim).foldl (fun (acc : Bool × ℤ × ℤ) i =>
    if -st.dz i > 0 ∧ ER.ble (ER.fin (st.z i)) ((p.lbz i).subQ e) then (true, (i : ℤ), -1)
    else if st.dz i > 0 ∧ ER.ble ((p.ubz i).addQ e) (ER.fin (st.z i)) then (true, (i : ℤ), 1)
    else acc) (false, -1, 0)

/-- The main loop of `casadi_qp_primal_blocking`, with the early `return`
on `tau ≤ 0` modelled by stopping the recursion.  Accumulator:
`(tau, index, sign)`. -/
def qp_primal_blocking_loop (p : QpData) (st : QpState) (e : ℚ) :
    List ℕ → (ℚ × ℤ × ℤ) → (ℚ × ℤ × ℤ)
  | [], acc => acc
  | i :: rest, acc =>
    if st.dz i = 0 then qp_primal_blocking_loop p st e rest acc
    else
      let trial := st.z i + acc.1 * st.dz i
      let acc' :=
        if st.dz i < 0 ∧ ER.blt (ER.fin trial) ((p.lbz i).subQ e) then
          (((p.lbz i).finPart - e - st.z i) / st.dz i,
            (if st.lam i < 0 then (-1 : ℤ) else (i : ℤ)), (-1 : ℤ))
        else if st.dz i > 0 ∧ ER.blt ((p.ubz i).addQ e) (ER.fin trial) then
          (((p.ubz i).finPart + e - st.z i) / st.dz i,
            (if st.lam i > 0 then (-1 : ℤ) else (i : ℤ)), (1 : ℤ))
        else acc
      if acc'.1 ≤ 0 then acc'
      else qp_primal_blocking_loop p st e rest acc'

/-- The full scan of `casadi_qp_primal_blocking` over all components. -/
def qp_primal_blocking_scan (p : QpData) (st : QpState) (e : ℚ) (index sign : ℤ) :
    ℚ × ℤ × ℤ :=
  qp_primal_blocking_loop p st e (List.range p.nzdim) (st.tau, index, sign)

/-- `casadi_qp_primal_blocking`: shortens `tau` so the primal trial stays
within the `e`-relaxed bounds; returns the updated state and (index, sign). -/
def casadi_qp_primal_blocking (p : QpData) (st : QpState) (e : ℚ) (index sign : ℤ) :
    QpState × ℤ × ℤ :=
  if (casadi_qp_zero_blocking p st e).1 then
    ({ st with tau := 0 }, (casadi_qp_zero_blocking p st e).2.1,
      (casadi_qp_zero_blocking p st e).2.2)
  else
    ({ st with tau := (qp_primal_blocking_scan p st e index sign).1 },
      (qp_primal_blocking_scan p st e index sign).2.1,
      (qp_primal_blocking_scan p st e index sign).2.2)

/-- Sorted insertion used by `casadi_qp_dual_breakpoints`: the C inserts the
new `(tau, index)` pair by a shift loop that scans all elements but the last
(the sentinel `(tau, -1)` stays in final position), placing the new pair
before the first strictly larger tau. -/
def bpInsert (t : ℚ) (i : ℤ) : List (ℚ × ℤ) → List (ℚ × ℤ)
  | [] => [(t, i)]
  | [last] => [(t, i), last]
  | a :: rest => if t < a.1 then (t, i) :: a :: rest else a :: bpInsert t i rest

/-- `casadi_qp_dual_breakpoints`: the ordered list of step lengths at which
some active multiplier crosses zero, ending with the sentinel `(tau, -1)`.
The C writes the taus to `w` and the indices to `iw`; the embedding pairs
them in one list.  The parameter `e` is unused in the source as well. -/
def casadi_qp_dual_breakpoints (p : QpData) (st : QpState) (_e tau : ℚ) : List (ℚ × ℤ) :=
  (List.range p.nzdim).foldl (fun l i =>
    if st.dlam i = 0 then l
    else if st.lam i = 0 then l
    else if (if st.lam i > 0 then st.lam i + tau * st.dlam i ≥ 0
             else st.lam i + tau * st.dlam i ≤ 0) then l
    else bpInsert (-(st.lam i) / st.dlam i) (i : ℤ) l) [(tau, -1)]

/-- The inner scan of one breakpoint interval of `casadi_qp_dual_blocking`:
new `tau` and the blocking dual-infeasibility component, if any. -/
def qp_dual_blocking_upd (p : QpData) (st : QpState) (e tau_k dtau : ℚ) : ℚ × ℤ :=
  (List.range p.nx).foldl (fun (acc : ℚ × ℤ) k =>
    let new_infeas := st.infeas k + dtau * st.tinfeas k
    if |new_infeas| > e then
      let tau1 := max 0
        (tau_k + ((if new_infeas > 0 then e else -e) - st.infeas k) / st.tinfeas k)
      if tau1 < acc.1 then (tau1, (k : ℤ)) else acc
    else acc) (st.tau, -1)

/-- The advanced dual infeasibility after one breakpoint interval of
`casadi_qp_dual_blocking`. -/
def qp_dual_blocking_infeas1 (p : QpData) (st : QpState) (e tau_k dtau : ℚ) : ℕ → ℚ :=
  fun k =>
    if k < p.nx then
      st.infeas k + min ((qp_dual_blocking_upd p st e tau_k dtau).1 - tau_k) dtau * st.tinfeas k
    else st.infeas k

/-- The state after one breakpoint interval of `casadi_qp_dual_blocking`
(before any `tinfeas` downdate): `tau` and `infeas` advanced. -/
def qp_dual_blocking_st1 (p : QpData) (st : QpState) (e tau_k dtau : ℚ) : QpState :=
  { st with
    tau := (qp_dual_blocking_upd p st e tau_k dtau).1,
    infeas := qp_dual_blocking_infeas1 p st e tau_k dtau }

/-- The `tinfeas` downdate of `casadi_qp_dual_blocking` for a simple-bound
multiplier crossing zero. -/
def qp_dual_blocking_tinfX (st1 : QpState) (i : ℕ) : ℕ → ℚ :=
  fun k => if k = i then st1.tinfeas i - st1.dlam i else st1.tinfeas k

/-- The `tinfeas` downdate of `casadi_qp_dual_blocking` for a constraint
multiplier crossing zero (a column of `A` transposed). -/
def qp_dual_blocking_tinfA (p : QpData) (st1 : QpState) (i : ℕ) : ℕ → ℚ :=
  (p.sp_at.colKs (i - p.nx)).foldl
    (fun tf kk => updQ tf (p.sp_at.rowidx kk)
      (tf (p.sp_at.rowidx kk) - p.nz_at kk * st1.dlam i)) st1.tinfeas

/-- The `tinfeas` downdate of `casadi_qp_dual_blocking` when the multiplier
of component `i` crosses zero at a breakpoint. -/
def qp_dual_blocking_st2 (p : QpData) (st1 : QpState) (i : ℕ) : QpState :=
  if p.neverzero i then st1
  else if i < p.nx then { st1 with tinfeas := qp_dual_blocking_tinfX st1 i }
  else { st1 with tinfeas := qp_dual_blocking_tinfA p st1 i }

/-- The breakpoint walk of `casadi_qp_dual_blocking`.  Carries the evolving
state (tau, infeas, tinfeas) and the left end `tau_k` of the current
interval; returns the updated state and the blocking index (or -1). -/
def qp_dual_blocking_loop (p : QpData) (e : ℚ) :
    List (ℚ × ℤ) → QpState → ℚ → QpState × ℤ
  | [], st, _ => (st, -1)
  | (tj, ij) :: rest, st, tau_k =>
    if 0 ≤ (qp_dual_blocking_upd p st e tau_k (tj - tau_k)).2 then
      (qp_dual_blocking_st1 p st e tau_k (tj - tau_k),
        (qp_dual_blocking_upd p st e tau_k (tj - tau_k)).2)
    else if ij < 0 then (qp_dual_blocking_st1 p st e tau_k (tj - tau_k), -1)
    else qp_dual_blocking_loop p e rest
      (qp_dual_blocking_st2 p (qp_dual_blocking_st1 p st e tau_k (tj - tau_k)) ij.toNat) tj

/-- `casadi_qp_dual_blocking`: walk the dual breakpoints, shortening `tau`
when the dual infeasibility would exceed `e`; returns the blocking index. -/
def casadi_qp_dual_blocking (p : QpData) (st : QpState) (e : ℚ) : QpState × ℤ :=
  qp_dual_blocking_loop p e (casadi_qp_dual_breakpoints p st e st.tau) st 0

/-- `casadi_qp_take_step`: apply the primal-dual step and re-enforce the
recorded sign of each multiplier (allowing the swap for `neverzero`
components). -/
def casadi_qp_take_step (p : QpData) (st : QpState) : QpState :=
  let lam1 : ℕ → ℚ := fun i => st.lam i + st.tau * st.dlam i
  let lam2 : ℕ → ℚ := fun i =>
    if i < p.nzdim then
      let s0 : ℤ := if st.lam i > 0 then 1 else if st.lam i < 0 then -1 else 0
      let s1 : ℤ := if p.neverzero i ∧ (if s0 < 0 then lam1 i > 0 else lam1 i < 0)
        then -s0 else s0
      if s1 = -1 then min (lam1 i) (-p.dmin)
      else if s1 = 1 then max (lam1 i) p.dmin
      else 0
    else st.lam i
  { st with
    z := fun i => if i < p.nzdim then st.z i + st.tau * st.dz i else st.z i,
    lam := lam2 }

/-- The primal-blocking stage of `casadi_qp_linesearch`, started at
`tau = 1` with the `pr`-scaled tolerance. -/
def qp_linesearch_pb (p : QpData) (st : QpState) : QpState × ℤ × ℤ :=
  casadi_qp_primal_blocking p { st with tau := 1 } (max st.pr (st.du / p.du_to_pr)) (-1) 0

/-- The dual-blocking stage of `casadi_qp_linesearch`, on the primal-blocked
state with the `du`-scaled tolerance. -/
def qp_linesearch_db (p : QpData) (st : QpState) : QpState × ℤ :=
  casadi_qp_dual_blocking p (qp_linesearch_pb p st).1 (max (st.pr * p.du_to_pr) st.du)

/-- `casadi_qp_linesearch`: primal blocking, dual blocking (which on firing
resets the blocking index), then the step.  Returns state and (index, sign). -/
def casadi_qp_linesearch (p : QpData) (st : QpState) : QpState × ℤ × ℤ :=
  (casadi_qp_take_step p (qp_linesearch_db p st).1,
    (if 0 ≤ (qp_linesearch_db p st).2 then (-1 : ℤ) else (qp_linesearch_pb p st).2.1),
    (if 0 ≤ (qp_linesearch_db p st).2 then (0 : ℤ) else (qp_linesearch_pb p st).2.2))

/-- `casadi_qp_flip_check`: test whether flipping `index` alone keeps the KKT
matrix nonsingular; if not, search for the best companion flip.  Returns the
state (with `dz` clobbered by the solve), the return flag (0 = independent or
companion found, 1 = no companion), and the companion `(r_index, r_sign)`.
On the quick-return path the C leaves the caller's `r_index`/`r_sign`
untouched; they are unobservable there (the caller only reads them when the
flag is nonzero), so the embedding returns `(-1, 0)`.  The running
`best_slack` starts at `-inf` in the C; it is modelled by an `Option ℚ`
accumulator with `none` for `-inf`.

First, the KKT column of the flip and its solve (written into `dz`). -/
def qp_flip_check_dz (p : QpData) (orc : QrOracle) (st : QpState)
    (index : ℕ) (sign : ℤ) : ℕ → ℚ :=
  orc.qrSolve st.nz_v st.nz_r st.beta false (casadi_qp_kkt_column p index sign)

/-- The companion search of `casadi_qp_flip_check` over all other
components: best `(r_index, r_sign)` and the running best slack. -/
def qp_flip_check_best (p : QpData) (st : QpState) (index : ℕ) (sign : ℤ) (e : ℚ)
    (dz2 : ℕ → ℚ) : ℤ × ℤ × Option ℚ :=
  let wv := casadi_qp_kkt_column p index (if sign = 0 then 1 else 0)
  (List.range p.nzdim).foldl
    (fun (acc : ℤ × ℤ × Option ℚ) i =>
      if i = index then acc
      else if (if st.lam i = 0 then p.neverlower i ∧ p.neverupper i
               else p.neverzero i) then acc
      else if |dz2 i| < eps12 then acc
      else if |casadi_qp_kkt_dot p wv i (if st.lam i = 0 then 1 else 0)| < eps12 then acc
      else if st.lam i = 0 then
        let new_sign : ℤ :=
          if ER.ble (ER.qsub (st.z i) (p.ubz i)) ((p.lbz i).subQ (st.z i)) then -1 else 1
        if (match acc.2.2 with | none => true | some b => decide (b < 0)) then
          ((i : ℤ), new_sign, some 0)
        else acc
      else
        if casadi_qp_du_check p st i > e then acc
        else
          let new_slack := if st.lam i > 0 then ((p.ubz i).subQ (st.z i)).finPart
            else (ER.qsub (st.z i) (p.lbz i)).finPart
          if (match acc.2.2 with | none => true | some b => decide (b < new_slack)) then
            ((i : ℤ), 0, some new_slack)
          else acc) (-1, 0, none)

def casadi_qp_flip_check (p : QpData) (orc : QrOracle) (st : QpState)
    (index : ℕ) (sign : ℤ) (e : ℚ) : QpState × ℤ × ℤ × ℤ :=
  if eps12 ≤ |qp_flip_check_dz p orc st index sign index| then
    ({ st with dz := qp_flip_check_dz p orc st index sign }, 0, -1, 0)
  else
    ({ st with dz := qp_flip_check_dz p orc st index sign },
      (if 0 ≤ (qp_flip_check_best p st index sign e (qp_flip_check_dz p orc st index sign)).1
       then 0 else 1),
      (qp_flip_check_best p st index sign e (qp_flip_check_dz p orc st index sign)).1,
      (qp_flip_check_best p st index sign e (qp_flip_check_dz p orc st index sign)).2.1)

/-- `casadi_qp_flip`: commit the next active-set change, if any.  Takes the
incoming `(index, sign)` from the previous line search and `(r_index,
r_sign)` from the previous step computation; returns the updated state and
the outgoing `(index, sign)`.  The companion commit inside the
`flip_check != 0` branch of the C is unreachable (the check returns nonzero
exactly when no companion was found, i.e. `r_index = -1`), so only
`lam[index]` changes.

First, the preference between the companion flip from the previous
`casadi_qp_scale_step` and the index from the previous line search. -/
def qp_flip_ix1 (p : QpData) (st : QpState) (index sign r_index r_sign : ℤ) : ℤ × ℤ :=
  if 0 ≤ r_index ∧ (r_sign ≠ 0 ∨
      casadi_qp_du_check p st r_index.toNat ≤ max (p.du_to_pr * st.pr) st.du) then
    (r_index, r_sign)
  else (index, sign)

/-- The final `(index, sign)` candidate of `casadi_qp_flip`: keep the
incoming candidate if valid; otherwise, when progress stalled, look for a
fresh flip from `pr_index`/`du_index`. -/
def qp_flip_select (p : QpData) (st : QpState) (index sign r_index r_sign : ℤ) : ℤ × ℤ :=
  if (qp_flip_ix1 p st index sign r_index r_sign).1 = -1 ∧ eps16 < st.tau ∧
      (0 ≤ st.ipr ∨ 0 ≤ st.idu) then
    if p.du_to_pr * st.pr ≥ st.du then
      if 0 ≤ (casadi_qp_pr_index p st).1 then casadi_qp_pr_index p st
      else qp_flip_ix1 p st index sign r_index r_sign
    else
      if 0 ≤ casadi_qp_du_index p st then (casadi_qp_du_index p st, 0)
      else qp_flip_ix1 p st index sign r_index r_sign
  else qp_flip_ix1 p st index sign r_index r_sign

/-- The commit of one flip: run the singularity check when the KKT matrix is
currently nonsingular (its solve clobbers `dz`), then write the new
multiplier value at the flipped index. -/
def qp_flip_commit (p : QpData) (orc : QrOracle) (st : QpState) (ix : ℤ × ℤ) : QpState :=
  let st1 :=
    if st.sing = 0 then
      (casadi_qp_flip_check p orc st ix.1.toNat ix.2 (max (p.du_to_pr * st.pr) st.du)).1
    else st
  { st1 with lam := fun i =>
      if i = ix.1.toNat then (if ix.2 = 0 then 0 else if 0 < ix.2 then p.dmin else -p.dmin)
      else st1.lam i }

def casadi_qp_flip (p : QpData) (orc : QrOracle) (st : QpState)
    (index sign r_index r_sign : ℤ) : QpState × ℤ × ℤ :=
  if 0 ≤ (qp_flip_select p st index sign r_index r_sign).1 then
    (casadi_qp_calc_dependent p
        (qp_flip_commit p orc st (qp_flip_select p st index sign r_index r_sign)),
      -2, (qp_flip_select p st index sign r_index r_sign).2)
  else (st, (qp_flip_select p st index sign r_index r_sign).1,
    (qp_flip_select p st index sign r_index r_sign).2)

/-- `casadi_qp_factorize`: assemble the KKT matrix, factorize it with the
external QR, and record the singularity status with its witness. -/
def casadi_qp_factorize (p : QpData) (orc : QrOracle) (st : QpState) : QpState :=
  let st1 := casadi_qp_kkt p st
  let vrb := orc.qr st1.nz_kkt
  let sg := orc.qrSingular vrb.2.1
  { st1 with nz_v := vrb.1, nz_r := vrb.2.1, beta := vrb.2.2,
             sing := sg.1, mina := sg.2.1, imina := sg.2.2 }

/-- `casadi_qp_scale_step`: when the KKT matrix is singular, pick the best
constraint flip restoring rank and scale the direction to reach it.  Returns
`none` exactly when the C performs the out-of-bounds read `lam[ipr]` with
`ipr = -1` (reachable when `du_to_pr·pr ≥ du` with `pr = 0`, `du = 0`);
otherwise `some (status, state, r_index, r_sign)` with status 1 on failure
to find a flip.  The running best `tau` starts at `inf` in the C, modelled
by an `Option ℚ` accumulator with `none` for `inf`.

First, the trial step length derived from the worst primal violation. -/
def qp_scale_step_tpr (p : QpData) (st : QpState) : ℚ :=
  if st.ipr < 0 then 0
  else if ER.blt (p.ubz st.ipr.toNat) (ER.fin (st.z st.ipr.toNat)) then
    st.dz st.ipr.toNat / st.pr
  else -(st.dz st.ipr.toNat) / st.pr

/-- The trial step length derived from the worst dual infeasibility. -/
def qp_scale_step_tdu (st : QpState) : ℚ :=
  if st.idu < 0 then 0 else st.tinfeas st.idu.toNat / st.infeas st.idu.toNat

/-- The admissible error-reducing directions `(pos_ok, neg_ok)` and the
error-reducing trial step `terr` of `casadi_qp_scale_step`. -/
def qp_scale_step_pn0 (p : QpData) (st : QpState) : Bool × Bool × ℚ :=
  if st.pr > st.du then
    (!decide (qp_scale_step_tpr p st > 0), !decide (qp_scale_step_tpr p st < 0),
      qp_scale_step_tpr p st)
  else if st.pr < st.du then
    (!decide (qp_scale_step_tdu st > 0), !decide (qp_scale_step_tdu st < 0),
      qp_scale_step_tdu st)
  else if (qp_scale_step_tpr p st > 0 ∧ qp_scale_step_tdu st < 0)
      ∨ (qp_scale_step_tpr p st < 0 ∧ qp_scale_step_tdu st > 0) then (false, false, 0)
  else if min (qp_scale_step_tpr p st) (qp_scale_step_tdu st) < 0 then
    (true, false, max (qp_scale_step_tpr p st) (qp_scale_step_tdu st))
  else if max (qp_scale_step_tpr p st) (qp_scale_step_tdu st) > 0 then
    (false, true, min (qp_scale_step_tpr p st) (qp_scale_step_tdu st))
  else (true, true, 0)

/-- The dual-sign adjustment of the admissible directions.  `none` marks the
path on which the C reads `lam[ipr]` with `ipr = -1` (the branch
`du_to_pr*pr >= du` taken while no primal violation index exists). -/
def qp_scale_step_okadj (p : QpData) (st : QpState) : Option (Bool × Bool) :=
  if p.du_to_pr * st.pr ≥ st.du then
    if st.ipr < 0 then none
    else if st.lam st.ipr.toNat ≠ 0 ∧ eps12 < |st.dlam st.ipr.toNat| then
      some (if (st.lam st.ipr.toNat > 0) = (st.dlam st.ipr.toNat > 0) then
        ((qp_scale_step_pn0 p st).1, false) else (false, (qp_scale_step_pn0 p st).2.1))
    else some ((qp_scale_step_pn0 p st).1, (qp_scale_step_pn0 p st).2.1)
  else some ((qp_scale_step_pn0 p st).1, (qp_scale_step_pn0 p st).2.1)

/-- The state after the transposed refactorization in `casadi_qp_scale_step`:
`nz_kkt` holds the transpose and `nz_v`, `nz_r`, `beta` its QR factors. -/
def qp_scale_step_stq (p : QpData) (orc : QrOracle) (st : QpState) : QpState :=
  let kktT := cscTransNz p.sp_kkt st.nz_kkt p.sp_kkt
  let vrb := orc.qr kktT
  { st with nz_kkt := kktT, nz_v := vrb.1, nz_r := vrb.2.1, beta := vrb.2.2 }

/-- The candidate scan of `casadi_qp_scale_step` over all nullspace columns:
best step length `t` and the flip `(r_index, r_sign)` reaching it. -/
def qp_scale_step_cand (p : QpData) (orc : QrOracle) (st : QpState)
    (pos_ok neg_ok : Bool) (terr : ℚ) : Option ℚ × ℤ × ℤ :=
  let stq := qp_scale_step_stq p orc st
  let sgT := orc.qrSingular stq.nz_r
  (List.range sgT.1.toNat).foldl (fun acc1 nulli =>
    let wv := orc.qrColcomb stq.nz_r sgT.2.2 nulli
    (List.range p.nzdim).foldl (fun (acc : Option ℚ × ℤ × ℤ) i =>
      if |if i < p.nx then st.dz i else st.dlam i| < eps12 then acc
      else if |casadi_qp_kkt_dot p wv i 0 - casadi_qp_kkt_dot p wv i 1| < eps12 then acc
      else if st.lam i = 0 then
        if |st.dz i| < eps12 then acc
        else
          let acc2 :=
            if p.neverlower i then acc
            else
              let tt := ((p.lbz i).subQ (st.z i)).finPart / st.dz i
              if ¬ ((terr > 0 ∧ tt > 0) ∨ (terr < 0 ∧ tt < 0)) then
                if eps16 ≤ |tt| then
                  if (match acc.1 with | none => true | some t => decide (|tt| < |t|)) then
                    (some tt, (i : ℤ), -1)
                  else acc
                else acc
              else acc
          if p.neverupper i then acc2
          else
            let tt := ((p.ubz i).subQ (st.z i)).finPart / st.dz i
            if ¬ ((terr > 0 ∧ tt > 0) ∨ (terr < 0 ∧ tt < 0)) then
              if eps16 ≤ |tt| then
                if (match acc2.1 with | none => true | some t => decide (|tt| < |t|)) then
                  (some tt, (i : ℤ), 1)
                else acc2
              else acc2
            else acc2
      else
        if |st.dlam i| < eps12 then acc
        else if p.neverzero i then acc
        else
          let tt := -(st.lam i) / st.dlam i
          if (terr > 0 ∧ tt > 0) ∨ (terr < 0 ∧ tt < 0) then acc
          else if (tt > 0 ∧ pos_ok = false) ∨ (tt < 0 ∧ neg_ok = false) then acc
          else if (match acc.1 with | none => true | some t => decide (|tt| < |t|)) then
            (some tt, (i : ℤ), 0)
          else acc) acc1) ((none : Option ℚ), (-1 : ℤ), (0 : ℤ))

/-- The scaled direction of `casadi_qp_scale_step` on the success path:
`dz`, `dlam`, `tinfeas` multiplied by the best step length found. -/
def qp_scale_step_scaled (p : QpData) (orc : QrOracle) (st : QpState)
    (pos_ok neg_ok : Bool) (terr : ℚ) : QpState :=
  let stq := qp_scale_step_stq p orc st
  let t := match (qp_scale_step_cand p orc st pos_ok neg_ok terr).1 with
    | some t => t
    | none => 0
  { stq with
    dz := fun i => if i < p.nzdim then t * stq.dz i else stq.dz i,
    dlam := fun i => if i < p.nzdim then t * stq.dlam i else stq.dlam i,
    tinfeas := fun i => if i < p.nx then t * stq.tinfeas i else stq.tinfeas i }

/-- The singular branch of `casadi_qp_scale_step` after the admissible
directions are fixed: refactorize the transpose, scan the nullspace
candidates, and scale the step (status 1 when no candidate was found). -/
def qp_scale_step_core (p : QpData) (orc : QrOracle) (st : QpState)
    (pos_ok neg_ok : Bool) (terr : ℚ) : ℤ × QpState × ℤ × ℤ :=
  if (qp_scale_step_cand p orc st pos_ok neg_ok terr).2.1 < 0 then
    (1, qp_scale_step_stq p orc st,
      (qp_scale_step_cand p orc st pos_ok neg_ok terr).2.1,
      (qp_scale_step_cand p orc st pos_ok neg_ok terr).2.2)
  else
    (0, qp_scale_step_scaled p orc st pos_ok neg_ok terr,
      (qp_scale_step_cand p orc st pos_ok neg_ok terr).2.1,
      (qp_scale_step_cand p orc st pos_ok neg_ok terr).2.2)

def casadi_qp_scale_step (p : QpData) (orc : QrOracle) (st : QpState) :
    Option (ℤ × QpState × ℤ × ℤ) :=
  if st.sing = 0 then some (0, st, -1, 0)
  else
    match qp_scale_step_okadj p st with
    | none => none
    | some pnok =>
      some (qp_scale_step_core p orc st pnok.1 pnok.2 (qp_scale_step_pn0 p st).2.2)

/-- `casadi_qp_calc_step`: compute the primal-dual search direction (KKT
solve when nonsingular, nullspace column when singular), derive `dlam`, the
constraint-slack part of `dz` and the dual-infeasibility tangent, then call
`casadi_qp_scale_step`. -/
def qp_calc_step_prep (p : QpData) (orc : QrOracle) (st : QpState) : QpState :=
  let dz0 : ℕ → ℚ :=
    if st.sing = 0 then
      orc.qrSolve st.nz_v st.nz_r st.beta true (casadi_qp_kkt_residual p st)
    else orc.qrColcomb st.nz_r st.imina 0
  let dlam0 : ℕ → ℚ := fun i =>
    if i < p.nx then
      -(cscMvRow p.sp_h p.nz_h dz0 i + cscMvTCol p.sp_a p.nz_a (fun r => dz0 (p.nx + r)) i)
    else st.dlam i
  let dlam1 : ℕ → ℚ := fun i =>
    if i < p.nx then (if st.lam i = 0 then 0 else dlam0 i)
    else if i < p.nzdim then dz0 i
    else st.dlam i
  let dz1 : ℕ → ℚ := fun i =>
    if p.nx ≤ i ∧ i < p.nzdim then cscMvRow p.sp_a p.nz_a dz0 (i - p.nx) else dz0 i
  let dz2 : ℕ → ℚ := fun i => if i < p.nzdim ∧ |dz1 i| < eps14 then 0 else dz1 i
  let tinf : ℕ → ℚ := fun i =>
    if i < p.nx then
      cscMvRow p.sp_h p.nz_h dz2 i
        + cscMvTCol p.sp_a p.nz_a (fun r => dlam1 (p.nx + r)) i + dlam1 i
    else st.tinfeas i
  { st with dz := dz2, dlam := dlam1, tinfeas := tinf }

def casadi_qp_calc_step (p : QpData) (orc : QrOracle) (st : QpState) :
    Option (ℤ × QpState × ℤ × ℤ) :=
  casadi_qp_scale_step p orc (qp_calc_step_prep p orc st)

/-- The raw problem handed to `eval`: matrix data, bounds, initial guess and
options.  `dmin` stands for the C constant `DMIN` (smallest positive normal
double), kept symbolic and positive. -/
structure QpProb : Type where
  nx : ℕ
  na : ℕ
  sp_h : Sp
  nz_h : ℕ → ℚ
  sp_a : Sp
  nz_a : ℕ → ℚ
  sp_at : Sp
  sp_kkt : Sp
  g : ℕ → ℚ
  lbx : ℕ → ER
  ubx : ℕ → ER
  lba : ℕ → ER
  uba : ℕ → ER
  x0 : ℕ → ℚ
  lam_x0 : ℕ → ℚ
  lam_a0 : ℕ → ℚ
  dmin : ℚ
  du_to_pr : ℚ
  max_iter : ℕ

/-- Stacked lower bound `lbz = [lbx; lba]`. -/
def QpProb.lbz (q : QpProb) : ℕ → ER :=
  fun i => if i < q.nx then q.lbx i else q.lba (i - q.nx)

/-- Stacked upper bound `ubz = [ubx; uba]`. -/
def QpProb.ubz (q : QpProb) : ℕ → ER :=
  fun i => if i < q.nx then q.ubx i else q.uba (i - q.nx)

/-- Stacked initial multiplier `lam = [lam_x0; lam_a0]`. -/
def QpProb.lam0 (q : QpProb) : ℕ → ℚ :=
  fun i => if i < q.nx then q.lam_x0 i else q.lam_a0 (i - q.nx)

/-- The `casadi_qp_mem` data fields as `eval` sets them up: masks derived
from the bounds, `nz_at` computed by `casadi_trans`. -/
def QpProb.data (q : QpProb) : QpData :=
  { nx := q.nx, na := q.na,
    sp_h := q.sp_h, nz_h := q.nz_h,
    sp_a := q.sp_a, nz_a := q.nz_a,
    sp_at := q.sp_at, nz_at := cscTransNz q.sp_a q.nz_a q.sp_at,
    sp_kkt := q.sp_kkt, g := q.g,
    lbz := q.lbz, ubz := q.ubz,
    neverzero := fun i => q.lbz i == q.ubz i,
    neverupper := fun i => (q.ubz i).isinfB,
    neverlower := fun i => (q.lbz i).isinfB,
    dmin := q.dmin, du_to_pr := q.du_to_pr }

/-- One index of the initial-active-set correction loop of `eval` (with the
embedded `casadi_assert`). -/
def qp_init_value (q : QpProb) (lam : ℕ → ℚ) (i : ℕ) : ℚ :=
  if (q.lbz i == q.ubz i) ∧ lam i = 0 then
    (if (q.ubz i).isinfB ∨ ER.ble (ER.qsub (q.x0 i) (q.lbz i)) ((q.ubz i).subQ (q.x0 i))
     then -q.dmin else q.dmin)
  else if (q.ubz i).isinfB ∧ lam i > 0 then (if (q.lbz i == q.ubz i) then -q.dmin else 0)
  else if (q.lbz i).isinfB ∧ lam i < 0 then (if (q.lbz i == q.ubz i) then q.dmin else 0)
  else lam i

def qp_init_step (q : QpProb) (acc : Except ℕ (ℕ → ℚ)) (i : ℕ) : Except ℕ (ℕ → ℚ) :=
  match acc with
  | Except.error j => Except.error j
  | Except.ok lam =>
    if (q.lbz i == q.ubz i) ∧ (q.ubz i).isinfB ∧ (q.lbz i).isinfB then Except.error i
    else Except.ok (fun j => if j = i then qp_init_value q lam i else lam j)

/-- The initial-active-set correction loop of `eval`: returns the corrected
multiplier vector, or the first index for which no sign is permitted. -/
def qp_init_lam (q : QpProb) : Except ℕ (ℕ → ℚ) :=
  (List.range (q.nx + q.na)).foldl (qp_init_step q) (Except.ok q.lam0)

/-- The state at loop entry: `z`, `lam` from the guesses (with corrected
active set), `tau = 0`, `sing = 0`; the uninitialized work buffers of the C
are modelled as zero (every later read is preceded by a write). -/
def qp_init_state (q : QpProb) (lam : ℕ → ℚ) : QpState :=
  { z := q.x0, lam := lam,
    dz := fun _ => 0, dlam := fun _ => 0, infeas := fun _ => 0,
    tinfeas := fun _ => 0, nz_kkt := fun _ => 0, nz_v := fun _ => 0,
    nz_r := fun _ => 0, beta := fun _ => 0,
    f := 0, pr := 0, du := 0, tau := 0, mina := 0,
    ipr := -1, idu := -1, imina := 0, sing := 0 }

/-- How the main loop of `eval` exited. -/
inductive ExitKind : Type where
  | converged : ExitKind
  | maxIterReached : ExitKind
  | dirFail : ExitKind
deriving DecidableEq

/-- The flag value returned at each loop exit of `eval` (the literals
assigned to `flag` in the three `break` branches). -/
def exitFlag : ExitKind → ℤ
  | ExitKind.converged => 0
  | ExitKind.maxIterReached => 1
  | ExitKind.dirFail => 1

/-- Result of a run of `eval`'s main loop. -/
inductive LoopRes : Type where
  | out : ExitKind → QpState → LoopRes
  | oob : LoopRes
  | fuelOut : LoopRes

/-- The main loop of `eval`, fuel-based.  `fuelOut` is an artifact of the
embedding: any fuel exceeding `max_iter + 1 - iter` suffices.  `oob` records
that `casadi_qp_scale_step` performed its out-of-bounds read.

First, the dependent-update + flip stage of one driver iteration. -/
def qp_iter_fl (p : QpData) (orc : QrOracle) (st : QpState)
    (index sign r_index r_sign : ℤ) : QpState × ℤ × ℤ :=
  casadi_qp_flip p orc (casadi_qp_calc_dependent p st) index sign r_index r_sign

/-- The factorized state of one driver iteration before the step. -/
def qp_iter_st3 (p : QpData) (orc : QrOracle) (st : QpState)
    (index sign r_index r_sign : ℤ) : QpState :=
  casadi_qp_factorize p orc (qp_iter_fl p orc st index sign r_index r_sign).1

def qp_eval_loop (p : QpData) (orc : QrOracle) (max_iter : ℕ) :
    ℕ → ℕ → QpState → ℤ → ℤ → ℤ → ℤ → LoopRes
  | 0, _, _, _, _, _, _ => LoopRes.fuelOut
  | fuel+1, iter, st, index, sign, r_index, r_sign =>
    if (qp_iter_fl p orc st index sign r_index r_sign).2.1 = -1 then
      LoopRes.out ExitKind.converged (qp_iter_st3 p orc st index sign r_index r_sign)
    else if max_iter ≤ iter then
      LoopRes.out ExitKind.maxIterReached (qp_iter_st3 p orc st index sign r_index r_sign)
    else
      match casadi_qp_calc_step p orc (qp_iter_st3 p orc st index sign r_index r_sign) with
      | none => LoopRes.oob
      | some stp =>
        if stp.1 ≠ 0 then LoopRes.out ExitKind.dirFail stp.2.1
        else qp_eval_loop p orc max_iter fuel (iter+1)
          (casadi_qp_linesearch p stp.2.1).1
          (casadi_qp_linesearch p stp.2.1).2.1
          (casadi_qp_linesearch p stp.2.1).2.2 stp.2.2.1 stp.2.2.2

/-- Result of `eval`: initialization failure index, a normal return carrying
`(flag, x, lam_x, lam_a, cost)` and the final memory state, the
out-of-bounds marker, or the fuel artifact. -/
inductive EvalRes : Type where
  | err : ℕ → EvalRes
  | ok : ℤ → (ℕ → ℚ) → (ℕ → ℚ) → (ℕ → ℚ) → ℚ → QpState → EvalRes
  | oob : EvalRes
  | fuelOut : EvalRes

/-- `ConicActiveSet::eval`: bounds and initial guess, permitted-sign check
with active-set correction, then the driver loop; on either loop exit the
outputs are copied from the current iterate. -/
def conicActiveSet_eval (q : QpProb) (orc : QrOracle) : EvalRes :=
  match qp_init_lam q with
  | Except.error i => EvalRes.err i
  | Except.ok lam =>
    match qp_eval_loop q.data orc q.max_iter (q.max_iter + 2) 0
        (qp_init_state q lam) (-2) 0 (-2) 0 with
    | LoopRes.out kind st =>
      EvalRes.ok (exitFlag kind)
        (fun i => if i < q.nx then st.z i else 0)
        (fun i => if i < q.nx then st.lam i else 0)
        (fun i => if i < q.na then st.lam (q.nx + i) else 0)
        st.f st
    | LoopRes.oob => EvalRes.oob
    | LoopRes.fuelOut => EvalRes.fuelOut

/-- The permitted-sign (activity) invariant of spec section 8: a positive
multiplier may only pin an existing upper bound, a negative one a lower
bound, and a zero multiplier is only allowed off equality constraints. -/
def signOk (p : QpData) (lam : ℕ → ℚ) : Prop :=
  ∀ i < p.nzdim,
    (0 < lam i → p.neverupper i = false) ∧
    (lam i < 0 → p.neverlower i = false) ∧
    (lam i = 0 → p.neverzero i = false)

/-- The masks are the ones `eval` derives from the bounds. -/
def masksFromBounds (p : QpData) : Prop :=
  ∀ i < p.nzdim,
    p.neverzero i = (p.lbz i == p.ubz i) ∧
    p.neverupper i = (p.ubz i).isinfB ∧
    p.neverlower i = (p.lbz i).isinfB

/-- Bound consistency `lbz ≤ ubz`, enforced by the framework's generic
input checker before the core runs. -/
def boundsSane (p : QpData) : Prop :=
  ∀ i < p.nzdim, ER.ble (p.lbz i) (p.ubz i) = true

/-- The condition checked by the initialization assert: no index forbids
all three signs. -/
def noForbiddenIndex (p : QpData) : Prop :=
  ∀ i < p.nzdim,
    ¬(p.neverzero i = true ∧ p.neverupper i = true ∧ p.neverlower i = true)

/-- Validity of a candidate `(index, sign)` pair handed to `casadi_qp_flip`:
committing it respects the permitted-sign masks. -/
def flipCandOk (p : QpData) (index sign : ℤ) : Prop :=
  0 ≤ index →
    (0 < sign → p.neverupper index.toNat = false) ∧
    (sign < 0 → p.neverlower index.toNat = false) ∧
    (sign = 0 → p.neverzero index.toNat = false)

/-- Spec-side definition following the words of claim C2: row `i` of K is
row `i` of `[H | Aᵀ]` when `λ_i = 0, i < n`; `e_iᵀ` when `λ_i ≠ 0, i < n`;
`−e_iᵀ` when `λ_i = 0, i ≥ n`; and row `(i−n)` of `[A | 0]` placed over
columns `[0..n)` when `λ_i ≠ 0, i ≥ n`. -/
def qp_kkt_rowSpec (p : QpData) (lam : ℕ → ℚ) (i j : ℕ) : ℚ :=
  if i < p.nx then
    if lam i = 0 then
      (if j < p.nx then cscEntry p.sp_h p.nz_h i j else cscEntry p.sp_a p.nz_a (j - p.nx) i)
    else (if j = i then 1 else 0)
  else
    if lam i = 0 then (if j = i then -1 else 0)
    else (if j < p.nx then cscEntry p.sp_a p.nz_a (i - p.nx) j else 0)

/-- The dense row `i` of the activity-dependent KKT matrix as the code
accesses the data: column `i` of H (the code relies on the symmetry of H to
read row `i`), column `i` of A shifted by `nx`, unit rows, or column
`(i - nx)` of the precomputed transpose `AT`. -/
def qp_kkt_rowVal (p : QpData) (lam : ℕ → ℚ) (i j : ℕ) : ℚ :=
  if i < p.nx then
    if lam i = 0 then
      (if j < p.nx then cscEntry p.sp_h p.nz_h j i else cscEntry p.sp_a p.nz_a (j - p.nx) i)
    else (if j = i then 1 else 0)
  else
    if lam i = 0 then (if j = i then -1 else 0)
    else cscEntry p.sp_at p.nz_at j (i - p.nx)

/-- The dense positions written by the scatter phase of `casadi_qp_kkt` for
row `i` (the support of the selected row). -/
def qp_kkt_rowSupport (p : QpData) (lam : ℕ → ℚ) (i : ℕ) : List ℕ :=
  if i < p.nx then
    if lam i = 0 then
      (p.sp_h.colKs i).map p.sp_h.rowidx
        ++ (p.sp_a.colKs i).map (fun k => p.nx + p.sp_a.rowidx k)
    else [i]
  else
    if lam i = 0 then [i]
    else (p.sp_at.colKs (i - p.nx)).map p.sp_at.rowidx

/-- The sign-change test of `casadi_qp_dual_breakpoints`: multiplier `i` is
active, moving, and its trial value at step `tau` strictly crosses zero. -/
def qp_signChange (st : QpState) (tau : ℚ) (i : ℕ) : Bool :=
  !decide (st.dlam i = 0) && !decide (st.lam i = 0) &&
    (if st.lam i > 0 then decide (st.lam i + tau * st.dlam i < 0)
     else decide (st.lam i + tau * st.dlam i > 0))

/-- The breakpoints that claim C6 says must appear: one pair
`(-lam i / dlam i, i)` per sign-changing index. -/
def qp_bpList (p : QpData) (st : QpState) (tau : ℚ) : List (ℚ × ℤ) :=
  ((List.range p.nzdim).filter (fun i => qp_signChange st tau i)).map
    (fun i => (-(st.lam i) / st.dlam i, (i : ℤ)))

/-- Whether `eval` fails at initialization (the `casadi_assert` fires). -/
def isInitError (q : QpProb) : Bool :=
  match qp_init_lam q with
  | Except.error _ => true
  | Except.ok _ => false

/-- A pattern of `n` structurally empty columns. -/
def spCols (n : ℕ) : Sp := { ncol := n, colind := fun _ => 0, rowidx := fun _ => 0 }

/-- A 1×1 pattern with the single entry (0,0). -/
def spUnit : Sp := { ncol := 1, colind := fun c => min c 1, rowidx := fun _ => 0 }

/-- A dense 2×2 pattern in CSC order. -/
def spFull2 : Sp := { ncol := 2, colind := fun c => 2 * min c 2, rowidx := fun k => k % 2 }

/-- A trivial QR oracle: everything zero, factorization reported
nonsingular, solves returned unchanged.  Used where the oracle's values are
irrelevant to the property at hand. -/
def orcTriv : QrOracle :=
  { qr := fun _ => (fun _ => 0, fun _ => 0, fun _ => 0),
    qrSingular := fun _ => (0, 1, 0),
    qrSolve := fun _ _ _ _ rhs => rhs,
    qrColcomb := fun _ _ _ => fun _ => 1 }

/-- Modelled from the spec: the behaviour of the external sparse QR on the
1×1 zero KKT matrix of `prob10` — the R factor is zero, so `qr_singular`
reports nullity 1 with witness diagonal 0, and any unit vector is a
nullspace column combination. -/
def oracle10 : QrOracle :=
  { qr := fun _ => (fun _ => 0, fun _ => 0, fun _ => 0),
    qrSingular := fun _ => (1, 0, 0),
    qrSolve := fun _ _ _ _ rhs => rhs,
    qrColcomb := fun _ _ _ => fun _ => 1 }

/-- Failing input for claim C10: one variable, no constraints, `H` a stored
zero, `g = 0`, box `[-10, 10]`, initial guess `x0 = 0`, `lam0 = 0`.  The
initial iterate is optimal (`pr = du = 0`, `ipr = idu = -1`) and the KKT
matrix is numerically zero, hence singular. -/
def prob10 : QpProb :=
  { nx := 1, na := 0,
    sp_h := spUnit, nz_h := fun _ => 0,
    sp_a := spCols 1, nz_a := fun _ => 0,
    sp_at := spCols 0,
    sp_kkt := spUnit,
    g := fun _ => 0,
    lbx := fun _ => ER.fin (-10), ubx := fun _ => ER.fin 10,
    lba := fun _ => ER.fin 0, uba := fun _ => ER.fin 0,
    x0 := fun _ => 0, lam_x0 := fun _ => 0, lam_a0 := fun _ => 0,
    dmin := 1/1000, du_to_pr := 1000, max_iter := 1000 }

/-- The input of spec scenario 4 (claim C9): two variables, no constraints,
`lbx = (1,1)` strictly above `ubx = (0,0)`. -/
def prob9 : QpProb :=
  { nx := 2, na := 0,
    sp_h := spCols 2, nz_h := fun _ => 0,
    sp_a := spCols 2, nz_a := fun _ => 0,
    sp_at := spCols 0,
    sp_kkt := spFull2,
    g := fun _ => 0,
    lbx := fun _ => ER.fin 1, ubx := fun _ => ER.fin 0,
    lba := fun _ => ER.fin 0, uba := fun _ => ER.fin 0,
    x0 := fun _ => 0, lam_x0 := fun _ => 0, lam_a0 := fun _ => 0,
    dmin := 1/1000, du_to_pr := 1000, max_iter := 1000 }

/-- Data for the C1 counterexample: one variable in the box `[-10, 10]`,
one equality constraint `x = 1` (`lbz 1 = ubz 1 = 1`, so `neverzero 1`),
`H = 0` (empty pattern), `A = [1]`, `g = 1`. -/
def p_c1 : QpData :=
  { nx := 1, na := 1,
    sp_h := spCols 1, nz_h := fun _ => 0,
    sp_a := spUnit, nz_a := fun _ => 1,
    sp_at := spUnit, nz_at := fun _ => 1,
    sp_kkt := spFull2,
    g := fun _ => 1,
    lbz := fun i => if i = 0 then ER.fin (-10) else ER.fin 1,
    ubz := fun i => if i = 0 then ER.fin 10 else ER.fin 1,
    neverzero := fun i => decide (i = 1),
    neverupper := fun _ => false,
    neverlower := fun _ => false,
    dmin := 1/1000, du_to_pr := 1000 }

/-- State for the C1 counterexample: `x = 1` (so `z` is primal feasible and
the equality holds exactly), `lam = (0, 1)` (equality active with upper
sign, box inactive), `tau = 1` from the previous line search, and a KKT
matrix flagged singular so that `flip_check` is skipped. -/
def st_c1 : QpState :=
  { z := fun _ => 1,
    lam := fun i => if i = 1 then 1 else 0,
    dz := fun _ => 0, dlam := fun _ => 0, infeas := fun _ => 0,
    tinfeas := fun _ => 0, nz_kkt := fun _ => 0, nz_v := fun _ => 0,
    nz_r := fun _ => 0, beta := fun _ => 0,
    f := 0, pr := 0, du := 0, tau := 1, mina := 0,
    ipr := -1, idu := -1, imina := 0, sing := 1 }

/-- Data for the C2 and C4/C7 witnesses: one variable, one constraint,
`H = [2]`, `A = [3]`, box `[-5, 5]`, row bounds `[0, 4]`, `g = 1`. -/
def p_w : QpData :=
  { nx := 1, na := 1,
    sp_h := spUnit, nz_h := fun _ => 2,
    sp_a := spUnit, nz_a := fun _ => 3,
    sp_at := spUnit, nz_at := fun _ => 3,
    sp_kkt := spFull2,
    g := fun _ => 1,
    lbz := fun i => if i = 0 then ER.fin (-5) else ER.fin 0,
    ubz := fun i => if i = 0 then ER.fin 5 else ER.fin 4,
    neverzero := fun _ => false,
    neverupper := fun _ => false,
    neverlower := fun _ => false,
    dmin := 1/1000, du_to_pr := 1000 }

/-- State for the C2/C4/C6/C7 witnesses: `z = (1, 3)`, `lam = (1, -1)`
(both bounds active), a unit step direction `dz = dlam = (1, 1)`. -/
def st_w : QpState :=
  { z := fun i => if i = 0 then 1 else 3,
    lam := fun i => if i = 0 then 1 else -1,
    dz := fun _ => 1, dlam := fun i => if i = 0 then -2 else 2,
    infeas := fun _ => 0,
    tinfeas := fun _ => 0, nz_kkt := fun _ => 0, nz_v := fun _ => 0,
    nz_r := fun _ => 0, beta := fun _ => 0,
    f := 0, pr := 0, du := 0, tau := 1, mina := 0,
    ipr := -1, idu := -1, imina := 0, sing := 0 }

theorem QpState.ext' {a b : QpState}
    (h1 : a.z = b.z) (h2 : a.lam = b.lam) (h3 : a.dz = b.dz) (h4 : a.dlam = b.dlam)
    (h5 : a.infeas = b.infeas) (h6 : a.tinfeas = b.tinfeas) (h7 : a.nz_kkt = b.nz_kkt)
    (h8 : a.nz_v = b.nz_v) (h9 : a.nz_r = b.nz_r) (h10 : a.beta = b.beta)
    (h11 : a.f = b.f) (h12 : a.pr = b.pr) (h13 : a.du = b.du) (h14 : a.tau = b.tau)
    (h15 : a.mina = b.mina) (h16 : a.ipr = b.ipr) (h17 : a.idu = b.idu)
    (h18 : a.imina = b.imina) (h19 : a.sing = b.sing) : a = b := by
  cases a; cases b; simp_all

theorem calc_dependent_z (p : QpData) (st : QpState) :
    (casadi_qp_calc_dependent p st).z = qp_z1 p st := rfl

theorem calc_dependent_lam (p : QpData) (st : QpState) :
    (casadi_qp_calc_dependent p st).lam
      = qp_lam1 p st (qp_infeas0 p st (qp_z1 p st)) := rfl

theorem calc_dependent_infeas (p : QpData) (st : QpState) :
    (casadi_qp_calc_dependent p st).infeas = fun i =>
      if i < p.nx then
        qp_infeas0 p st (qp_z1 p st) i + qp_lam1 p st (qp_infeas0 p st (qp_z1 p st)) i
      else qp_infeas0 p st (qp_z1 p st) i := rfl

theorem calc_dependent_f (p : QpData) (st : QpState) :
    (casadi_qp_calc_dependent p st).f
      = cscBilin p.sp_h p.nz_h st.z st.z / 2 + qDot p.nx st.z p.g := rfl

theorem calc_dependent_pr (p : QpData) (st : QpState) :
    (casadi_qp_calc_dependent p st).pr = (qp_prAcc p (qp_z1 p st)).1 := rfl

theorem calc_dependent_ipr (p : QpData) (st : QpState) :
    (casadi_qp_calc_dependent p st).ipr = (qp_prAcc p (qp_z1 p st)).2 := rfl

theorem calc_dependent_du (p : QpData) (st : QpState) :
    (casadi_qp_calc_dependent p st).du
      = (qp_duAcc p (casadi_qp_calc_dependent p st).infeas).1 := rfl

theorem calc_dependent_idu (p : QpData) (st : QpState) :
    (casadi_qp_calc_dependent p st).idu
      = (qp_duAcc p (casadi_qp_calc_dependent p st).infeas).2 := rfl

theorem calc_dependent_dz (p : QpData) (st : QpState) :
    (casadi_qp_calc_dependent p st).dz = st.dz := rfl

theorem calc_dependent_tau (p : QpData) (st : QpState) :
    (casadi_qp_calc_dependent p st).tau = st.tau := rfl

theorem calc_dependent_sing (p : QpData) (st : QpState) :
    (casadi_qp_calc_dependent p st).sing = st.sing := rfl

/-- C4: in `casadi_qp_calc_dependent`, for `i < n` the bound multiplier is
clamped sign-preservingly against the fresh Lagrangian gradient — for
`λ_i > 0` it becomes `max(−infeas_i, DMIN)`, for `λ_i < 0` it becomes
`min(−infeas_i, −DMIN)`, keeping its sign and a magnitude of at least DMIN
— then `infeas_i` becomes `infeas_i + λ_i` (with the new `λ_i`); for
`λ_i = 0` the multiplier is left unchanged. -/
theorem c4_calc_dependent_lam (p : QpData) (st : QpState) (i : ℕ)
    (hi : i < p.nx) (hdmin : 0 < p.dmin) :
    (st.lam i > 0 →
      (casadi_qp_calc_dependent p st).lam i
          = max (-(qp_infeas0 p st (qp_z1 p st) i)) p.dmin ∧
        0 < (casadi_qp_calc_dependent p st).lam i ∧
        p.dmin ≤ |(casadi_qp_calc_dependent p st).lam i|) ∧
    (st.lam i < 0 →
      (casadi_qp_calc_dependent p st).lam i
          = min (-(qp_infeas0 p st (qp_z1 p st) i)) (-p.dmin) ∧
        (casadi_qp_calc_dependent p st).lam i < 0 ∧
        p.dmin ≤ |(casadi_qp_calc_dependent p st).lam i|) ∧
    (st.lam i = 0 → (casadi_qp_calc_dependent p st).lam i = st.lam i) ∧
    (casadi_qp_calc_dependent p st).infeas i
      = qp_infeas0 p st (qp_z1 p st) i + (casadi_qp_calc_dependent p st).lam i := by
  rw [calc_dependent_lam, calc_dependent_infeas]
  unfold qp_lam1
  simp only [hi, if_pos]
  refine ⟨?_, ?_, ?_, ?_⟩
  · intro hpos
    rw [if_pos hpos]
    refine ⟨rfl, lt_of_lt_of_le hdmin (le_max_right _ _), ?_⟩
    rw [abs_of_pos (lt_of_lt_of_le hdmin (le_max_right _ _))]
    exact le_max_right _ _
  · intro hneg
    rw [if_neg (by linarith), if_pos hneg]
    have hle : min (-(qp_infeas0 p st (qp_z1 p st) i)) (-p.dmin) ≤ -p.dmin :=
      min_le_right _ _
    refine ⟨rfl, by linarith, ?_⟩
    rw [abs_of_neg (by linarith)]
    linarith [min_le_right (-(qp_infeas0 p st (qp_z1 p st) i)) (-p.dmin)]
  · intro hz
    rw [if_neg (by simp [hz]), if_neg (by simp [hz])]
  · simp [hi]

/-- Witness for C4 at the concrete instance `p_w`, `st_w`, index 0. -/
theorem c4_witness :
    (st_w.lam 0 > 0 →
      (casadi_qp_calc_dependent p_w st_w).lam 0
          = max (-(qp_infeas0 p_w st_w (qp_z1 p_w st_w) 0)) p_w.dmin ∧
        0 < (casadi_qp_calc_dependent p_w st_w).lam 0 ∧
        p_w.dmin ≤ |(casadi_qp_calc_dependent p_w st_w).lam 0|) ∧
    (st_w.lam 0 < 0 →
      (casadi_qp_calc_dependent p_w st_w).lam 0
          = min (-(qp_infeas0 p_w st_w (qp_z1 p_w st_w) 0)) (-p_w.dmin) ∧
        (casadi_qp_calc_dependent p_w st_w).lam 0 < 0 ∧
        p_w.dmin ≤ |(casadi_qp_calc_dependent p_w st_w).lam 0|) ∧
    (st_w.lam 0 = 0 → (casadi_qp_calc_dependent p_w st_w).lam 0 = st_w.lam 0) ∧
    (casadi_qp_calc_dependent p_w st_w).infeas 0
      = qp_infeas0 p_w st_w (qp_z1 p_w st_w) 0
        + (casadi_qp_calc_dependent p_w st_w).lam 0 :=
  c4_calc_dependent_lam p_w st_w 0 (by norm_num [p_w]) (by norm_num [p_w])

theorem cscMvRow_congr (sp : Sp) (nz x y : ℕ → ℚ) (r : ℕ)
    (h : ∀ c < sp.ncol, x c = y c) : cscMvRow sp nz x r = cscMvRow sp nz y r := by
  unfold cscMvRow
  congr 1
  refine List.map_congr_left ?_
  intro c hc
  rw [List.mem_range] at hc
  rw [h c hc]

theorem cscBilin_congr (sp : Sp) (nz x x' y y' : ℕ → ℚ)
    (hx : ∀ c < sp.ncol, ∀ k ∈ sp.colKs c, x (sp.rowidx k) = x' (sp.rowidx k))
    (hy : ∀ c < sp.ncol, y c = y' c) :
    cscBilin sp nz x y = cscBilin sp nz x' y' := by
  unfold cscBilin
  congr 1
  refine List.map_congr_left ?_
  intro c hc
  rw [List.mem_range] at hc
  rw [hy c hc]
  refine List.foldl_ext _ _ _ ?_
  intro s k hk
  rw [hx c hc k hk]

theorem qDot_congr (n : ℕ) (x y g : ℕ → ℚ) (h : ∀ i < n, x i = y i) :
    qDot n x g = qDot n y g := by
  unfold qDot
  congr 1
  refine List.map_congr_left ?_
  intro i hi
  rw [List.mem_range] at hi
  rw [h i hi]

theorem qp_z1_lo (p : QpData) (st : QpState) (i : ℕ) (hi : i < p.nx) :
    qp_z1 p st i = st.z i := by
  unfold qp_z1
  rw [if_neg]
  intro hc
  exact absurd hi (by omega)

theorem qp_lam1_hi (p : QpData) (st : QpState) (I0 : ℕ → ℚ) (j : ℕ) (hj : p.nx ≤ j) :
    qp_lam1 p st I0 j = st.lam j := by
  unfold qp_lam1
  rw [if_neg (by omega)]

/-- C7: `casadi_qp_calc_dependent` is idempotent — a second run from the
state it produces changes nothing (same `f`, `z`, `infeas`, `lam`, `pr`,
`ipr`, `du`, `idu`; all other fields are untouched by the routine). -/
theorem c7_calc_dependent_idem (p : QpData) (st : QpState)
    (hdmin : 0 < p.dmin)
    (hH : p.sp_h.ncol = p.nx)
    (hA : p.sp_a.ncol = p.nx)
    (hHrows : ∀ c < p.sp_h.ncol, ∀ k ∈ p.sp_h.colKs c, p.sp_h.rowidx k < p.nx) :
    casadi_qp_calc_dependent p (casadi_qp_calc_dependent p st)
      = casadi_qp_calc_dependent p st := by
  set st1 := casadi_qp_calc_dependent p st with hst1
  have h1 : ∀ i < p.nx, st1.z i = st.z i := by
    intro i hi
    rw [hst1, calc_dependent_z, qp_z1_lo p st i hi]
  have h2 : ∀ j, p.nx ≤ j → st1.lam j = st.lam j := by
    intro j hj
    rw [hst1, calc_dependent_lam, qp_lam1_hi p st _ j hj]
  have hz1 : qp_z1 p st1 = st1.z := by
    funext i
    by_cases hmid : p.nx ≤ i ∧ i < p.nzdim
    · unfold qp_z1
      rw [if_pos hmid]
      have : cscMvRow p.sp_a p.nz_a st1.z (i - p.nx)
          = cscMvRow p.sp_a p.nz_a st.z (i - p.nx) := by
        refine cscMvRow_congr _ _ _ _ _ ?_
        intro c hc
        exact h1 c (hA ▸ hc)
      rw [this, hst1, calc_dependent_z]
      unfold qp_z1
      rw [if_pos hmid]
    · unfold qp_z1
      rw [if_neg hmid]
  have hshift : (fun r => st1.lam (p.nx + r)) = (fun r => st.lam (p.nx + r)) := by
    funext r
    exact h2 (p.nx + r) (by omega)
  have hinf0 : ∀ i < p.nx,
      qp_infeas0 p st1 (qp_z1 p st1) i = qp_infeas0 p st (qp_z1 p st) i := by
    intro i hi
    unfold qp_infeas0
    rw [if_pos hi, if_pos hi, hz1, hshift]
    rfl
  have hlam1 : qp_lam1 p st1 (qp_infeas0 p st1 (qp_z1 p st1)) = st1.lam := by
    funext i
    by_cases hi : i < p.nx
    · have hl1 : st1.lam i = qp_lam1 p st (qp_infeas0 p st (qp_z1 p st)) i := by
        rw [hst1, calc_dependent_lam]
      unfold qp_lam1
      rw [if_pos hi]
      rcases lt_trichotomy (st.lam i) 0 with hneg | hzero | hpos
      · have hval : st1.lam i
            = min (-(qp_infeas0 p st (qp_z1 p st) i)) (-p.dmin) := by
          rw [hl1]; unfold qp_lam1
          rw [if_pos hi, if_neg (by linarith), if_pos hneg]
        have hlt : st1.lam i < 0 := by
          rw [hval]
          calc min (-(qp_infeas0 p st (qp_z1 p st) i)) (-p.dmin)
              ≤ -p.dmin := min_le_right _ _
            _ < 0 := by linarith
        rw [if_neg (by linarith), if_pos hlt, hinf0 i hi, hval]
      · have hval : st1.lam i = st.lam i := by
          rw [hl1]; unfold qp_lam1
          rw [if_pos hi, if_neg (by simp [hzero]), if_neg (by simp [hzero])]
        rw [hval, hzero]
        rw [if_neg (by norm_num), if_neg (by norm_num)]
      · have hval : st1.lam i
            = max (-(qp_infeas0 p st (qp_z1 p st) i)) p.dmin := by
          rw [hl1]; unfold qp_lam1
          rw [if_pos hi, if_pos hpos]
        have hgt : st1.lam i > 0 := by
          rw [hval]
          calc (0:ℚ) < p.dmin := hdmin
            _ ≤ max (-(qp_infeas0 p st (qp_z1 p st) i)) p.dmin := le_max_right _ _
        rw [if_pos hgt, hinf0 i hi, hval]
    · exact qp_lam1_hi p st1 _ i (by omega)
  have hinf1 :
      (fun i => if i < p.nx then
        qp_infeas0 p st1 (qp_z1 p st1) i
          + qp_lam1 p st1 (qp_infeas0 p st1 (qp_z1 p st1)) i
        else qp_infeas0 p st1 (qp_z1 p st1) i) = st1.infeas := by
    funext i
    by_cases hi : i < p.nx
    · rw [if_pos hi, hinf0 i hi, hlam1]
      rw [hst1, calc_dependent_infeas]
      simp only [if_pos hi]
      rw [← hst1, hst1, calc_dependent_lam]
    · rw [if_neg hi]
      have : qp_infeas0 p st1 (qp_z1 p st1) i = st1.infeas i := by
        unfold qp_infeas0
        rw [if_neg hi]
      rw [this]
  have hfz : cscBilin p.sp_h p.nz_h st1.z st1.z = cscBilin p.sp_h p.nz_h st.z st.z := by
    refine cscBilin_congr _ _ _ _ _ _ ?_ ?_
    · intro c hc k hk
      exact h1 _ (hHrows c hc k hk)
    · intro c hc
      exact h1 c (hH ▸ hc)
  have hfd : qDot p.nx st1.z p.g = qDot p.nx st.z p.g :=
    qDot_congr _ _ _ _ h1
  refine QpState.ext' ?_ ?_ ?_ ?_ ?_ ?_ rfl rfl rfl rfl ?_ ?_ ?_ rfl rfl ?_ ?_ rfl rfl
  · rw [calc_dependent_z, hz1, hst1, calc_dependent_z]
  · rw [calc_dependent_lam, hlam1, hst1, calc_dependent_lam]
  · rfl
  · rfl
  · rw [calc_dependent_infeas, hst1, calc_dependent_infeas]
    rw [← hst1, hinf1, hst1, calc_dependent_infeas]
  · rfl
  · rw [calc_dependent_f, hst1, calc_dependent_f, ← hst1, hfz, hfd]
  · rw [calc_dependent_pr, hst1, calc_dependent_pr, ← hst1, hz1, hst1, calc_dependent_z]
  · rw [calc_dependent_du, hst1, calc_dependent_du]
    rw [← hst1]
    have : (casadi_qp_calc_dependent p st1).infeas = st1.infeas := by
      rw [calc_dependent_infeas, hinf1]
    rw [this, hst1, calc_dependent_infeas]
  · rw [calc_dependent_ipr, hst1, calc_dependent_ipr, ← hst1, hz1, hst1, calc_dependent_z]
  · rw [calc_dependent_idu, hst1, calc_dependent_idu]
    rw [← hst1]
    have : (casadi_qp_calc_dependent p st1).infeas = st1.infeas := by
      rw [calc_dependent_infeas, hinf1]
    rw [this, hst1, calc_dependent_infeas]

/-- Witness for C7 at the concrete instance `p_w`, `st_w`. -/
theorem c7_witness :
    casadi_qp_calc_dependent p_w (casadi_qp_calc_dependent p_w st_w)
      = casadi_qp_calc_dependent p_w st_w :=
  c7_calc_dependent_idem p_w st_w (by norm_num [p_w]) (by norm_num [p_w, spUnit])
    (by norm_num [p_w, spUnit]) (by intro c hc k hk; norm_num [p_w, spUnit])

/-- No sign permitted at index `i`: the condition of the initialization
assert, phrased through the derived masks. -/
def initBad (q : QpProb) (i : ℕ) : Prop :=
  (q.lbz i == q.ubz i) = true ∧ (q.ubz i).isinfB = true ∧ (q.lbz i).isinfB = true

theorem init_fold_error (q : QpProb) (j : ℕ) :
    ∀ l : List ℕ, l.foldl (qp_init_step q) (Except.error j) = Except.error j := by
  intro l
  induction l with
  | nil => rfl
  | cons a t ih => exact ih

theorem init_fold_ok (q : QpProb) :
    ∀ l : List ℕ, ∀ lam : ℕ → ℚ, (∀ i ∈ l, ¬initBad q i) →
      ∃ lam', l.foldl (qp_init_step q) (Except.ok lam) = Except.ok lam' := by
  intro l
  induction l with
  | nil => exact fun lam _ => ⟨lam, rfl⟩
  | cons a t ih =>
    intro lam hgood
    have ha : ¬initBad q a := hgood a (List.mem_cons_self a t)
    have hstep : ∃ lam1, qp_init_step q (Except.ok lam) a = Except.ok lam1 := by
      unfold initBad at ha
      simp only [qp_init_step]
      rw [if_neg ha]
      exact ⟨_, rfl⟩
    obtain ⟨lam1, h1⟩ := hstep
    rw [List.foldl_cons, h1]
    exact ih lam1 (fun i hi => hgood i (List.mem_cons_of_mem a hi))

theorem init_fold_bad (q : QpProb) :
    ∀ l : List ℕ, ∀ lam : ℕ → ℚ, ∀ i ∈ l, initBad q i →
      ∃ j, l.foldl (qp_init_step q) (Except.ok lam) = Except.error j := by
  intro l
  induction l with
  | nil => intro lam i hi; exact absurd hi (List.not_mem_nil i)
  | cons a t ih =>
    intro lam i hi hbad
    by_cases hba : initBad q a
    · have hstep : qp_init_step q (Except.ok lam) a = Except.error a := by
        unfold initBad at hba
        simp only [qp_init_step]
        rw [if_pos hba]
      rw [List.foldl_cons, hstep, init_fold_error]
      exact ⟨a, rfl⟩
    · have hstep : ∃ lam1, qp_init_step q (Except.ok lam) a = Except.ok lam1 := by
        unfold initBad at hba
        simp only [qp_init_step]
        rw [if_neg hba]
        exact ⟨_, rfl⟩
      obtain ⟨lam1, h1⟩ := hstep
      rw [List.foldl_cons, h1]
      have hit : i ∈ t := by
        rcases List.mem_cons.mp hi with h | h
        · exact absurd (h ▸ hbad) hba
        · exact h
      exact ih lam1 i hit hbad

/-- C8: `eval` fails at initialization — before the iteration loop — exactly
when some index `i < n + m` has `neverzero ∧ neverupper ∧ neverlower`
(equal bounds, both infinite); when no such index exists, initialization
completes and the driver loop runs. -/
theorem c8_init_reject_iff (q : QpProb) (orc : QrOracle) :
    (∃ i, conicActiveSet_eval q orc = EvalRes.err i) ↔
    (∃ i, i < q.nx + q.na ∧ q.data.neverzero i = true ∧
      q.data.neverupper i = true ∧ q.data.neverlower i = true) := by
  have hbad : ∀ i, (q.data.neverzero i = true ∧ q.data.neverupper i = true ∧
      q.data.neverlower i = true) ↔ initBad q i := by
    intro i
    exact Iff.rfl
  have herr : (∃ i, conicActiveSet_eval q orc = EvalRes.err i) ↔
      (∃ j, qp_init_lam q = Except.error j) := by
    constructor
    · rintro ⟨i, hi⟩
      unfold conicActiveSet_eval at hi
      rcases hinit : qp_init_lam q with j | lam
      · exact ⟨j, rfl⟩
      · rw [hinit] at hi
        rcases hloop : qp_eval_loop q.data orc q.max_iter (q.max_iter + 2) 0
            (qp_init_state q lam) (-2) 0 (-2) 0 with ⟨kind, st⟩ | _ | _ <;>
          simp only [hloop] at hi <;> cases hi
    · rintro ⟨j, hj⟩
      refine ⟨j, ?_⟩
      unfold conicActiveSet_eval
      rw [hj]
  rw [herr]
  constructor
  · rintro ⟨j, hj⟩
    by_contra hno
    push_neg at hno
    have hgood : ∀ i ∈ List.range (q.nx + q.na), ¬initBad q i := by
      intro i hi
      rw [List.mem_range] at hi
      intro hb
      obtain ⟨hb1, hb2, hb3⟩ := hb
      exact absurd hb3 (by simpa using hno i hi hb1 hb2)
    obtain ⟨lam', hl⟩ := init_fold_ok q (List.range (q.nx + q.na)) q.lam0 hgood
    rw [qp_init_lam, hl] at hj
    cases hj
  · rintro ⟨i, hi, h1, h2, h3⟩
    exact init_fold_bad q (List.range (q.nx + q.na)) q.lam0 i
      (List.mem_range.mpr hi) ⟨h1, h2, h3⟩

/-- Counterexample to C9: on `lbx = (1,1)`, `ubx = (0,0)` the
permitted-sign assert does not fire — initialization succeeds, because
`neverzero` requires `lbz == ubz` and the bounds are finite and unequal. -/
theorem c9_counterexample : isInitError prob9 = false := by
  norm_num [isInitError, qp_init_lam, qp_init_step, prob9, QpProb.lbz, QpProb.ubz,
    List.range_succ, ER.isinfB, beq_iff_eq]

/-- C9 amended: for `lbx = (1,1)`, `ubx = (0,0)` (lower bounds strictly
above upper bounds, no linear constraints), `eval` does **not** report the
'no permitted sign' initialization error: all three permitted-sign masks
are false at both indices, initialization completes, and the iteration loop
is entered (any rejection of this input would come from the framework's
generic input checker, outside the core). -/
theorem c9_amended :
    isInitError prob9 = false ∧
    (∀ i < 2, prob9.data.neverzero i = false ∧ prob9.data.neverupper i = false ∧
      prob9.data.neverlower i = false) ∧
    (∀ (orc : QrOracle) (i : ℕ), conicActiveSet_eval prob9 orc ≠ EvalRes.err i) := by
  refine ⟨c9_counterexample, ?_, ?_⟩
  · intro i hi
    interval_cases i <;>
      norm_num [prob9, QpProb.data, QpProb.lbz, QpProb.ubz, ER.isinfB, beq_iff_eq]
  · intro orc i
    rcases hinit : qp_init_lam prob9 with j | lam
    · have : isInitError prob9 = true := by
        unfold isInitError
        rw [hinit]
      rw [c9_counterexample] at this
      cases this
    · unfold conicActiveSet_eval
      rw [hinit]
      rcases hloop : qp_eval_loop prob9.data orc prob9.max_iter (prob9.max_iter + 2) 0
          (qp_init_state prob9 lam) (-2) 0 (-2) 0 with ⟨kind, st⟩ | _ | _ <;>
        simp only [hloop] <;> intro hc <;> cases hc

theorem bpInsert_ne_nil (t : ℚ) (i : ℤ) : ∀ l : List (ℚ × ℤ), bpInsert t i l ≠ [] := by
  intro l
  cases l with
  | nil => simp [bpInsert]
  | cons a l' =>
    cases l' with
    | nil => simp [bpInsert]
    | cons b rest =>
      show (if t < a.1 then (t, i) :: a :: b :: rest else a :: bpInsert t i (b :: rest)) ≠ []
      split <;> simp

theorem bpInsert_getLast? (t : ℚ) (i : ℤ) :
    ∀ l : List (ℚ × ℤ), l ≠ [] → (bpInsert t i l).getLast? = l.getLast? := by
  intro l
  induction l with
  | nil => intro h; exact absurd rfl h
  | cons a l' ih =>
    cases l' with
    | nil => intro _; rfl
    | cons b rest =>
      intro _
      show (if t < a.1 then (t, i) :: a :: b :: rest
            else a :: bpInsert t i (b :: rest)).getLast? = _
      split
      · rw [List.getLast?_cons_cons]
      · obtain ⟨hd, tl, hcons⟩ := List.exists_cons_of_ne_nil (bpInsert_ne_nil t i (b :: rest))
        rw [hcons, List.getLast?_cons_cons, ← hcons, ih (by simp), List.getLast?_cons_cons]

theorem bpInsert_perm (t : ℚ) (i : ℤ) :
    ∀ l : List (ℚ × ℤ), (bpInsert t i l).Perm ((t, i) :: l) := by
  intro l
  induction l with
  | nil => exact List.Perm.refl _
  | cons a l' ih =>
    cases l' with
    | nil => exact List.Perm.refl _
    | cons b rest =>
      show (if t < a.1 then (t, i) :: a :: b :: rest
            else a :: bpInsert t i (b :: rest)).Perm _
      split
      · exact List.Perm.refl _
      · exact ((ih).cons a).trans (List.Perm.swap _ _ _)

theorem bpInsert_head? (t : ℚ) (i : ℤ) (l : List (ℚ × ℤ)) :
    (bpInsert t i l).head? = some (t, i) ∨ (bpInsert t i l).head? = l.head? := by
  cases l with
  | nil => left; rfl
  | cons a l' =>
    cases l' with
    | nil => left; rfl
    | cons b rest =>
      show ((if t < a.1 then (t, i) :: a :: b :: rest
            else a :: bpInsert t i (b :: rest)).head? = some (t, i)) ∨
        ((if t < a.1 then (t, i) :: a :: b :: rest
            else a :: bpInsert t i (b :: rest)).head? = (a :: b :: rest).head?)
      split
      · left; rfl
      · right; rfl

theorem bpInsert_chain (t : ℚ) (i : ℤ) :
    ∀ l : List (ℚ × ℤ), List.Chain' (fun a b : ℚ × ℤ => a.1 ≤ b.1) l →
      (∀ e ∈ l.getLast?, t ≤ e.1) →
      List.Chain' (fun a b : ℚ × ℤ => a.1 ≤ b.1) (bpInsert t i l) := by
  intro l
  induction l with
  | nil => intro _ _; simp [bpInsert]
  | cons a l' ih =>
    cases l' with
    | nil =>
      intro _ hlast
      show List.Chain' _ [(t, i), a]
      refine List.chain'_cons.mpr ⟨?_, List.chain'_singleton a⟩
      exact hlast a rfl
    | cons b rest =>
      intro hchain hlast
      show List.Chain' _ (if t < a.1 then (t, i) :: a :: b :: rest
            else a :: bpInsert t i (b :: rest))
      split
      · exact List.chain'_cons.mpr ⟨by linarith, hchain⟩
      · rename_i hge
        have hch' : List.Chain' (fun a b : ℚ × ℤ => a.1 ≤ b.1) (b :: rest) :=
          (List.chain'_cons.mp hchain).2
        have hab : a.1 ≤ b.1 := (List.chain'_cons.mp hchain).1
        have hlast' : ∀ e ∈ (b :: rest).getLast?, t ≤ e.1 := by
          intro e he
          exact hlast e (by rw [List.getLast?_cons_cons]; exact he)
        refine List.chain'_cons'.mpr ⟨?_, ih hch' hlast'⟩
        intro y hy
        rcases bpInsert_head? t i (b :: rest) with h | h
        · rw [h] at hy
          cases hy
          exact le_of_not_lt hge
        · rw [h] at hy
          cases hy
          exact hab

theorem foldl_if_filter {α β : Type} (c : α → Bool) (f : β → α → β) :
    ∀ (xs : List α) (init : β),
      xs.foldl (fun l x => if c x then f l x else l) init
        = (xs.filter c).foldl f init := by
  intro xs
  induction xs with
  | nil => intro _; rfl
  | cons a t ih =>
    intro init
    by_cases h : c a = true
    · rw [List.foldl_cons, if_pos h, List.filter_cons_of_pos h, List.foldl_cons]
      exact ih _
    · rw [List.foldl_cons, if_neg (by simp [h]),
        List.filter_cons_of_neg (by simp [h])]
      exact ih _

theorem breakpoints_body_eq (st : QpState) (tau : ℚ) (i : ℕ) (l : List (ℚ × ℤ)) :
    (if st.dlam i = 0 then l
     else if st.lam i = 0 then l
     else if (if st.lam i > 0 then st.lam i + tau * st.dlam i ≥ 0
              else st.lam i + tau * st.dlam i ≤ 0) then l
     else bpInsert (-(st.lam i) / st.dlam i) (i : ℤ) l)
    = (if qp_signChange st tau i then bpInsert (-(st.lam i) / st.dlam i) (i : ℤ) l
       else l) := by
  unfold qp_signChange
  by_cases h1 : st.dlam i = 0
  · simp [h1]
  by_cases h2 : st.lam i = 0
  · simp [h1, h2]
  by_cases h3 : st.lam i > 0
  · by_cases h4 : st.lam i + tau * st.dlam i ≥ 0
    · simp [h1, h2, h3, h4, not_lt.mpr h4]
    · simp [h1, h2, h3, h4, not_le.mp h4]
  · by_cases h4 : st.lam i + tau * st.dlam i ≤ 0
    · simp [h1, h2, h3, h4, not_lt.mpr h4]
    · simp [h1, h2, h3, h4, not_le.mp h4]

theorem breakpoints_eq_filter_fold (p : QpData) (st : QpState) (e0 tau : ℚ) :
    casadi_qp_dual_breakpoints p st e0 tau
      = ((List.range p.nzdim).filter (fun i => qp_signChange st tau i)).foldl
          (fun l i => bpInsert (-(st.lam i) / st.dlam i) (i : ℤ) l) [(tau, -1)] := by
  unfold casadi_qp_dual_breakpoints
  rw [← foldl_if_filter]
  refine List.foldl_ext _ _ _ ?_
  intro l i _
  exact breakpoints_body_eq st tau i l

theorem signChange_bp (st : QpState) (tau : ℚ) (i : ℕ) (htau : 0 ≤ tau)
    (h : qp_signChange st tau i = true) :
    0 < -(st.lam i) / st.dlam i ∧ -(st.lam i) / st.dlam i < tau := by
  unfold qp_signChange at h
  simp only [Bool.and_eq_true, Bool.not_eq_true', decide_eq_false_iff_not] at h
  obtain ⟨⟨hd, hl⟩, hif⟩ := h
  by_cases hpos : st.lam i > 0
  · rw [if_pos hpos, decide_eq_true_eq] at hif
    have hdneg : st.dlam i < 0 := by
      by_contra hge
      push_neg at hge
      have : 0 ≤ tau * st.dlam i := mul_nonneg htau hge
      linarith
    constructor
    · exact div_pos_of_neg_of_neg (by linarith) hdneg
    · rw [div_lt_iff_of_neg hdneg]
      linarith
  · have hneg : st.lam i < 0 := lt_of_le_of_ne (le_of_not_lt hpos) hl
    rw [if_neg hpos, decide_eq_true_eq] at hif
    have hdpos : 0 < st.dlam i := by
      by_contra hge
      push_neg at hge
      have : tau * st.dlam i ≤ 0 := mul_nonpos_of_nonneg_of_nonpos htau hge
      linarith
    constructor
    · exact div_pos (by linarith) hdpos
    · rw [div_lt_iff₀ hdpos]
      linarith

theorem foldl_bpInsert_perm (f : ℕ → ℚ) :
    ∀ (xs : List ℕ) (init : List (ℚ × ℤ)),
      (xs.foldl (fun l x => bpInsert (f x) (x : ℤ) l) init).Perm
        ((xs.map (fun x => (f x, (x : ℤ)))) ++ init) := by
  intro xs
  induction xs with
  | nil => intro init; exact List.Perm.refl _
  | cons a t ih =>
    intro init
    rw [List.foldl_cons, List.map_cons, List.cons_append]
    refine ((ih _).trans ?_)
    refine (List.Perm.append_left _ (bpInsert_perm (f a) (a : ℤ) init)).trans ?_
    exact List.perm_middle

theorem foldl_bpInsert_inv (f : ℕ → ℚ) (tau : ℚ) :
    ∀ (xs : List ℕ), (∀ x ∈ xs, f x ≤ tau) →
    ∀ (init : List (ℚ × ℤ)), init ≠ [] → init.getLast? = some (tau, -1) →
      List.Chain' (fun a b : ℚ × ℤ => a.1 ≤ b.1) init →
      (xs.foldl (fun l x => bpInsert (f x) (x : ℤ) l) init ≠ [] ∧
       (xs.foldl (fun l x => bpInsert (f x) (x : ℤ) l) init).getLast? = some (tau, -1) ∧
       List.Chain' (fun a b : ℚ × ℤ => a.1 ≤ b.1)
         (xs.foldl (fun l x => bpInsert (f x) (x : ℤ) l) init)) := by
  intro xs
  induction xs with
  | nil => intro _ init h1 h2 h3; exact ⟨h1, h2, h3⟩
  | cons a t ih =>
    intro hle init h1 h2 h3
    rw [List.foldl_cons]
    refine ih (fun x hx => hle x (List.mem_cons_of_mem a hx)) _
      (bpInsert_ne_nil _ _ _) ?_ ?_
    · rw [bpInsert_getLast? _ _ _ h1, h2]
    · refine bpInsert_chain _ _ _ h3 ?_
      intro e he
      rw [h2] at he
      cases he
      exact hle a (List.mem_cons_self a t)

/-- C6: `casadi_qp_dual_breakpoints` returns a nonempty list of
`(tau, index)` pairs, sorted nondecreasing in tau, whose last element is the
incoming step bound `(tau, -1)`; up to order it is exactly the sentinel plus
one pair `(-lam_i/dlam_i, i)` for each index `i` whose active multiplier
strictly changes sign over the step, and each such breakpoint lies strictly
between 0 and tau. -/
theorem c6_dual_breakpoints (p : QpData) (st : QpState) (e0 tau : ℚ)
    (htau : 0 ≤ tau) :
    casadi_qp_dual_breakpoints p st e0 tau ≠ [] ∧
    (casadi_qp_dual_breakpoints p st e0 tau).getLast? = some (tau, -1) ∧
    List.Chain' (fun a b : ℚ × ℤ => a.1 ≤ b.1) (casadi_qp_dual_breakpoints p st e0 tau) ∧
    (casadi_qp_dual_breakpoints p st e0 tau).Perm ((tau, -1) :: qp_bpList p st tau) ∧
    (casadi_qp_dual_breakpoints p st e0 tau).length = 1 + (qp_bpList p st tau).length ∧
    (∀ q ∈ qp_bpList p st tau, ∃ i : ℕ, i < p.nzdim ∧ q.2 = (i : ℤ) ∧
      qp_signChange st tau i = true ∧ q.1 = -(st.lam i) / st.dlam i ∧
      0 < q.1 ∧ q.1 < tau) ∧
    (qp_bpList p st tau).map Prod.snd
      = ((List.range p.nzdim).filter (fun i => qp_signChange st tau i)).map
          (fun i : ℕ => (i : ℤ)) := by
  have hfold := breakpoints_eq_filter_fold p st e0 tau
  set xs := (List.range p.nzdim).filter (fun i => qp_signChange st tau i) with hxs
  have hle : ∀ x ∈ xs, -(st.lam x) / st.dlam x ≤ tau := by
    intro x hx
    rw [hxs, List.mem_filter] at hx
    exact le_of_lt (signChange_bp st tau x htau hx.2).2
  have hinv := foldl_bpInsert_inv (fun x => -(st.lam x) / st.dlam x) tau xs hle
    [(tau, -1)] (by simp) (by simp) (List.chain'_singleton _)
  have hperm := foldl_bpInsert_perm (fun x => -(st.lam x) / st.dlam x) xs [(tau, -1)]
  have hbp : qp_bpList p st tau = xs.map (fun x => (-(st.lam x) / st.dlam x, (x : ℤ))) := by
    rw [qp_bpList, hxs]
  refine ⟨?_, ?_, ?_, ?_, ?_, ?_, ?_⟩
  · rw [hfold]; exact hinv.1
  · rw [hfold]; exact hinv.2.1
  · rw [hfold]; exact hinv.2.2
  · rw [hfold, hbp]
    refine hperm.trans ?_
    have : ((tau, -1) : ℚ × ℤ) :: xs.map (fun x => (-(st.lam x) / st.dlam x, (x : ℤ)))
        = [] ++ ((tau, -1) : ℚ × ℤ) :: (xs.map (fun x => (-(st.lam x) / st.dlam x, (x : ℤ))) ++ []) := by
      simp
    rw [this]
    have h2 : xs.map (fun x => (-(st.lam x) / st.dlam x, (x : ℤ))) ++ [((tau, -1) : ℚ × ℤ)]
        = xs.map (fun x => (-(st.lam x) / st.dlam x, (x : ℤ))) ++ ((tau, -1) : ℚ × ℤ) :: [] := rfl
    rw [h2]
    exact List.perm_middle.trans (by simp)
  · rw [hfold, hbp]
    have := List.Perm.length_eq hperm
    rw [this]
    simp [Nat.add_comm]
  · intro q hq
    rw [hbp, List.mem_map] at hq
    obtain ⟨x, hx, hxq⟩ := hq
    have hx' := hx
    rw [hxs, List.mem_filter, List.mem_range] at hx'
    refine ⟨x, hx'.1, ?_, hx'.2, ?_, ?_, ?_⟩
    · rw [← hxq]
    · rw [← hxq]
    · rw [← hxq]
      exact (signChange_bp st tau x htau hx'.2).1
    · rw [← hxq]
      exact (signChange_bp st tau x htau hx'.2).2
  · rw [hbp, List.map_map]
    exact List.map_congr_left (fun x _ => rfl)

/-- Witness for C6 at `p_w`, `st_w`, `e = 0`, `tau = 1`. -/
theorem c6_witness :
    casadi_qp_dual_breakpoints p_w st_w 0 1 ≠ [] ∧
    (casadi_qp_dual_breakpoints p_w st_w 0 1).getLast? = some (1, -1) ∧
    List.Chain' (fun a b : ℚ × ℤ => a.1 ≤ b.1) (casadi_qp_dual_breakpoints p_w st_w 0 1) ∧
    (casadi_qp_dual_breakpoints p_w st_w 0 1).Perm ((1, -1) :: qp_bpList p_w st_w 1) ∧
    (casadi_qp_dual_breakpoints p_w st_w 0 1).length = 1 + (qp_bpList p_w st_w 1).length ∧
    (∀ q ∈ qp_bpList p_w st_w 1, ∃ i : ℕ, i < p_w.nzdim ∧ q.2 = (i : ℤ) ∧
      qp_signChange st_w 1 i = true ∧ q.1 = -(st_w.lam i) / st_w.dlam i ∧
      0 < q.1 ∧ q.1 < 1) ∧
    (qp_bpList p_w st_w 1).map Prod.snd
      = ((List.range p_w.nzdim).filter (fun i => qp_signChange st_w 1 i)).map
          (fun i : ℕ => (i : ℤ)) :=
  c6_dual_breakpoints p_w st_w 0 1 (by norm_num)

theorem updQ_same (f : ℕ → ℚ) (j : ℕ) (v : ℚ) : updQ f j v j = v := by
  simp [updQ]

theorem updQ_other (f : ℕ → ℚ) (j j' : ℕ) (v : ℚ) (h : j' ≠ j) : updQ f j v j' = f j' := by
  simp [updQ, h]

theorem scatter_untouched (pos : ℕ → ℕ) (val : ℕ → ℚ) (j : ℕ) :
    ∀ (ks : List ℕ) (w : ℕ → ℚ), (∀ k ∈ ks, pos k ≠ j) →
      scatterCol ks pos val w j = w j := by
  intro ks
  induction ks with
  | nil => intro w _; rfl
  | cons a t ih =>
    intro w hk
    rw [scatterCol, List.foldl_cons]
    have := ih (updQ w (pos a) (val a)) (fun k hk' => hk k (List.mem_cons_of_mem a hk'))
    rw [scatterCol] at this
    rw [this, updQ_other _ _ _ _ (fun hc => hk a (List.mem_cons_self a t) hc.symm)]

theorem scatter_hit (pos : ℕ → ℕ) (val : ℕ → ℚ) :
    ∀ (ks : List ℕ) (w : ℕ → ℚ) (k : ℕ), k ∈ ks →
      ks.Pairwise (fun a b => pos a ≠ pos b) →
      scatterCol ks pos val w (pos k) = val k := by
  intro ks
  induction ks with
  | nil => intro w k hk; exact absurd hk (List.not_mem_nil k)
  | cons a t ih =>
    intro w k hk hpw
    rw [scatterCol, List.foldl_cons]
    rcases List.mem_cons.mp hk with rfl | hkt
    · have hall : ∀ k' ∈ t, pos k' ≠ pos k := by
        intro k' hk'
        exact fun hc => (List.pairwise_cons.mp hpw).1 k' hk' hc.symm
      have := scatter_untouched pos val (pos k) t (updQ w (pos k) (val k)) hall
      rw [scatterCol] at this
      rw [this, updQ_same]
    · exact ih _ k hkt (List.pairwise_cons.mp hpw).2

theorem cscEntry_foldl_zero (rowidx : ℕ → ℕ) (nz : ℕ → ℚ) (r : ℕ) :
    ∀ (ks : List ℕ) (s : ℚ), (∀ k ∈ ks, rowidx k ≠ r) →
      ks.foldl (fun s k => if rowidx k = r then s + nz k else s) s = s := by
  intro ks
  induction ks with
  | nil => intro s _; rfl
  | cons a t ih =>
    intro s h
    rw [List.foldl_cons, if_neg (h a (List.mem_cons_self a t))]
    exact ih s (fun k hk => h k (List.mem_cons_of_mem a hk))

theorem cscEntry_zero (sp : Sp) (nz : ℕ → ℚ) (r c : ℕ)
    (h : ∀ k ∈ sp.colKs c, sp.rowidx k ≠ r) : cscEntry sp nz r c = 0 :=
  cscEntry_foldl_zero sp.rowidx nz r (sp.colKs c) 0 h

theorem cscEntry_foldl_hit (rowidx : ℕ → ℕ) (nz : ℕ → ℚ) :
    ∀ (ks : List ℕ) (k : ℕ), k ∈ ks →
      ks.Pairwise (fun a b => rowidx a ≠ rowidx b) → ∀ (s : ℚ),
      ks.foldl (fun s k' => if rowidx k' = rowidx k then s + nz k' else s) s
        = s + nz k := by
  intro ks
  induction ks with
  | nil => intro k hk; exact absurd hk (List.not_mem_nil k)
  | cons a t ih =>
    intro k hk hpw s
    rcases List.mem_cons.mp hk with rfl | hkt
    · rw [List.foldl_cons, if_pos rfl]
      exact cscEntry_foldl_zero rowidx nz (rowidx k) t (s + nz k)
        (fun k' hk' => ((List.pairwise_cons.mp hpw).1 k' hk').symm)
    · rw [List.foldl_cons,
        if_neg ((List.pairwise_cons.mp hpw).1 k hkt)]
      exact ih k hkt (List.pairwise_cons.mp hpw).2 s

theorem cscEntry_hit (sp : Sp) (nz : ℕ → ℚ) (c : ℕ) (k : ℕ)
    (hk : k ∈ sp.colKs c)
    (hpw : (sp.colKs c).Pairwise (fun a b => sp.rowidx a ≠ sp.rowidx b)) :
    cscEntry sp nz (sp.rowidx k) c = nz k := by
  unfold cscEntry
  rw [cscEntry_foldl_hit sp.rowidx nz (sp.colKs c) k hk hpw 0, zero_add]

theorem kkt_row_w_spec (p : QpData) (lam : ℕ → ℚ) (i : ℕ) (w : ℕ → ℚ)
    (hw : ∀ j, w j = 0)
    (hndH : ∀ c, (p.sp_h.colKs c).Pairwise (fun a b => p.sp_h.rowidx a ≠ p.sp_h.rowidx b))
    (hndA : ∀ c, (p.sp_a.colKs c).Pairwise (fun a b => p.sp_a.rowidx a ≠ p.sp_a.rowidx b))
    (hndAT : ∀ c, (p.sp_at.colKs c).Pairwise (fun a b => p.sp_at.rowidx a ≠ p.sp_at.rowidx b))
    (hrowH : ∀ c k, k ∈ p.sp_h.colKs c → p.sp_h.rowidx k < p.nx) :
    ∀ j, qp_kkt_row_w p lam i w j = qp_kkt_rowVal p lam i j := by
  intro j
  unfold qp_kkt_row_w qp_kkt_rowVal
  by_cases hi : i < p.nx
  · rw [if_pos hi, if_pos hi]
    by_cases hl : lam i = 0
    · rw [if_pos hl, if_pos hl]
      by_cases hj : j < p.nx
      · rw [if_pos hj]
        rw [scatter_untouched _ _ _ _ _ (fun k _ => by omega)]
        by_cases hex : ∃ k ∈ p.sp_h.colKs i, p.sp_h.rowidx k = j
        · obtain ⟨k, hk, hkj⟩ := hex
          rw [← hkj, scatter_hit _ _ _ _ k hk (hndH i), cscEntry_hit _ _ _ k hk (hndH i)]
        · push_neg at hex
          rw [scatter_untouched _ _ _ _ _ hex, hw j, cscEntry_zero _ _ _ _ hex]
      · rw [if_neg hj]
        by_cases hex : ∃ k ∈ p.sp_a.colKs i, p.nx + p.sp_a.rowidx k = j
        · obtain ⟨k, hk, hkj⟩ := hex
          have hpwA : (p.sp_a.colKs i).Pairwise
              (fun a b => p.nx + p.sp_a.rowidx a ≠ p.nx + p.sp_a.rowidx b) :=
            (hndA i).imp (fun hab => by omega)
          rw [← hkj, scatter_hit _ _ _ _ k hk hpwA]
          have harith : p.nx + p.sp_a.rowidx k - p.nx = p.sp_a.rowidx k := by omega
          rw [harith, cscEntry_hit _ _ _ k hk (hndA i)]
        · push_neg at hex
          rw [scatter_untouched _ _ _ _ _ hex,
            scatter_untouched _ _ _ _ _ (fun k hk => by have := hrowH i k hk; omega),
            hw j]
          refine (cscEntry_zero _ _ _ _ ?_).symm
          intro k hk hc
          exact hex k hk (by omega)
    · rw [if_neg hl, if_neg hl]
      by_cases hji : j = i
      · rw [if_pos hji, hji, updQ_same]
      · rw [if_neg hji, updQ_other _ _ _ _ hji, hw j]
  · rw [if_neg hi, if_neg hi]
    by_cases hl : lam i = 0
    · rw [if_pos hl, if_pos hl]
      by_cases hji : j = i
      · rw [if_pos hji, hji, updQ_same]
      · rw [if_neg hji, updQ_other _ _ _ _ hji, hw j]
    · rw [if_neg hl, if_neg hl]
      by_cases hex : ∃ k ∈ p.sp_at.colKs (i - p.nx), p.sp_at.rowidx k = j
      · obtain ⟨k, hk, hkj⟩ := hex
        rw [← hkj, scatter_hit _ _ _ _ k hk (hndAT _), cscEntry_hit _ _ _ k hk (hndAT _)]
      · push_neg at hex
        rw [scatter_untouched _ _ _ _ _ hex, hw j]
        exact (cscEntry_zero _ _ _ _ hex).symm

theorem rowVal_off_support (p : QpData) (lam : ℕ → ℚ) (i j : ℕ)
    (hj : j ∉ qp_kkt_rowSupport p lam i) :
    qp_kkt_rowVal p lam i j = 0 := by
  unfold qp_kkt_rowSupport at hj
  unfold qp_kkt_rowVal
  by_cases hi : i < p.nx
  · rw [if_pos hi] at hj ⊢
    by_cases hl : lam i = 0
    · rw [if_pos hl] at hj ⊢
      rw [List.mem_append] at hj
      push_neg at hj
      by_cases hjx : j < p.nx
      · rw [if_pos hjx]
        refine cscEntry_zero _ _ _ _ ?_
        intro k hk hc
        exact hj.1 (List.mem_map.mpr ⟨k, hk, hc⟩)
      · rw [if_neg hjx]
        refine cscEntry_zero _ _ _ _ ?_
        intro k hk hc
        refine hj.2 (List.mem_map.mpr ⟨k, hk, ?_⟩)
        omega
    · rw [if_neg hl] at hj ⊢
      rw [if_neg (by intro hc; exact hj (by rw [hc]; exact List.mem_singleton_self i))]
  · rw [if_neg hi] at hj ⊢
    by_cases hl : lam i = 0
    · rw [if_pos hl] at hj ⊢
      rw [if_neg (by intro hc; exact hj (by rw [hc]; exact List.mem_singleton_self i))]
    · rw [if_neg hl] at hj ⊢
      refine cscEntry_zero _ _ _ _ ?_
      intro k hk hc
      exact hj (List.mem_map.mpr ⟨k, hk, hc⟩)

theorem gather_fold_spec (ridx : ℕ → ℕ) :
    ∀ (ks : List ℕ), ks.Nodup →
      ks.Pairwise (fun a b => ridx a ≠ ridx b) →
      ∀ (a : (ℕ → ℚ) × (ℕ → ℚ)),
      (∀ k ∈ ks, (ks.foldl (gatherF ridx) a).1 k = a.2 (ridx k)) ∧
      (∀ k, k ∉ ks → (ks.foldl (gatherF ridx) a).1 k = a.1 k) ∧
      (∀ k ∈ ks, (ks.foldl (gatherF ridx) a).2 (ridx k) = 0) ∧
      (∀ j, (∀ k ∈ ks, ridx k ≠ j) → (ks.foldl (gatherF ridx) a).2 j = a.2 j) := by
  intro ks
  induction ks with
  | nil =>
    intro _ _ a
    exact ⟨fun k hk => absurd hk (List.not_mem_nil k),
      fun k _ => rfl, fun k hk => absurd hk (List.not_mem_nil k), fun j _ => rfl⟩
  | cons k0 t ih =>
    intro hnd hpw a
    have hnd' := (List.nodup_cons.mp hnd).2
    have hk0t := (List.nodup_cons.mp hnd).1
    have hpw' := (List.pairwise_cons.mp hpw).2
    have hpwh := (List.pairwise_cons.mp hpw).1
    obtain ⟨ih1, ih2, ih3, ih4⟩ := ih hnd' hpw' (gatherF ridx a k0)
    rw [List.foldl_cons]
    refine ⟨?_, ?_, ?_, ?_⟩
    · intro k hk
      rcases List.mem_cons.mp hk with rfl | hkt
      · rw [ih2 k hk0t]
        show updQ a.1 k (a.2 (ridx k)) k = _
        rw [updQ_same]
      · rw [ih1 k hkt]
        show updQ a.2 (ridx k0) 0 (ridx k) = _
        rw [updQ_other _ _ _ _ (hpwh k hkt).symm]
    · intro k hk
      have hk0 : k ≠ k0 := fun hc => hk (hc ▸ List.mem_cons_self k0 t)
      have hkt : k ∉ t := fun hc => hk (List.mem_cons_of_mem k0 hc)
      rw [ih2 k hkt]
      show updQ a.1 k0 (a.2 (ridx k0)) k = _
      rw [updQ_other _ _ _ _ hk0]
    · intro k hk
      rcases List.mem_cons.mp hk with rfl | hkt
      · rw [ih4 (ridx k) (fun k' hk' hc => (hpwh k' hk') hc.symm)]
        show updQ a.2 (ridx k) 0 (ridx k) = _
        rw [updQ_same]
      · exact ih3 k hkt
    · intro j hj
      rw [ih4 j (fun k hk => hj k (List.mem_cons_of_mem k0 hk))]
      show updQ a.2 (ridx k0) 0 j = _
      rw [updQ_other _ _ _ _ (fun hc => hj k0 (List.mem_cons_self k0 t) hc.symm)]

theorem colKs_nodup (sp : Sp) (c : ℕ) : (sp.colKs c).Nodup :=
  List.nodup_range' _ _

theorem colKs_disjoint (sp : Sp) (hmono : ∀ c, sp.colind c ≤ sp.colind (c+1)) :
    ∀ i i', i ≠ i' → ∀ k, k ∈ sp.colKs i → k ∉ sp.colKs i' := by
  have hm : Monotone sp.colind := monotone_nat_of_le_succ hmono
  intro i i' hne k hk hk'
  rw [Sp.colKs, List.mem_range'_1] at hk hk'
  have h1 := hmono i
  have h2 := hmono i'
  rcases Nat.lt_or_ge i i' with h | h
  · have : sp.colind (i+1) ≤ sp.colind i' := hm (by omega)
    omega
  · have h' : i' < i := by omega
    have : sp.colind (i'+1) ≤ sp.colind i := hm (by omega)
    omega

theorem kkt_fold_spec (p : QpData) (lam : ℕ → ℚ)
    (hmonoK : ∀ c, p.sp_kkt.colind c ≤ p.sp_kkt.colind (c+1))
    (hndK : ∀ c, (p.sp_kkt.colKs c).Pairwise
      (fun a b => p.sp_kkt.rowidx a ≠ p.sp_kkt.rowidx b))
    (hndH : ∀ c, (p.sp_h.colKs c).Pairwise (fun a b => p.sp_h.rowidx a ≠ p.sp_h.rowidx b))
    (hndA : ∀ c, (p.sp_a.colKs c).Pairwise (fun a b => p.sp_a.rowidx a ≠ p.sp_a.rowidx b))
    (hndAT : ∀ c, (p.sp_at.colKs c).Pairwise
      (fun a b => p.sp_at.rowidx a ≠ p.sp_at.rowidx b))
    (hrowH : ∀ c k, k ∈ p.sp_h.colKs c → p.sp_h.rowidx k < p.nx)
    (hcover : ∀ i < p.nzdim, ∀ j ∈ qp_kkt_rowSupport p lam i,
      j ∈ (p.sp_kkt.colKs i).map p.sp_kkt.rowidx) :
    ∀ (l : List ℕ), (∀ i ∈ l, i < p.nzdim) →
    ∀ (a : (ℕ → ℚ) × (ℕ → ℚ)), (∀ j, a.2 j = 0) →
      (∀ j, (l.foldl (fun a i => qp_kkt_gather p i (a.1, qp_kkt_row_w p lam i a.2)) a).2 j
          = 0) ∧
      (∀ k, (∀ i ∈ l, k ∉ p.sp_kkt.colKs i) →
        (l.foldl (fun a i => qp_kkt_gather p i (a.1, qp_kkt_row_w p lam i a.2)) a).1 k
          = a.1 k) ∧
      (∀ i ∈ l, ∀ k ∈ p.sp_kkt.colKs i,
        (l.foldl (fun a i => qp_kkt_gather p i (a.1, qp_kkt_row_w p lam i a.2)) a).1 k
          = qp_kkt_rowVal p lam i (p.sp_kkt.rowidx k)) := by
  intro l
  induction l with
  | nil =>
    intro _ a ha
    exact ⟨ha, fun k _ => rfl, fun i hi => absurd hi (List.not_mem_nil i)⟩
  | cons i0 t ih =>
    intro hl a ha
    have hi0 : i0 < p.nzdim := hl i0 (List.mem_cons_self i0 t)
    have hw' : ∀ j, qp_kkt_row_w p lam i0 a.2 j = qp_kkt_rowVal p lam i0 j :=
      kkt_row_w_spec p lam i0 a.2 ha hndH hndA hndAT hrowH
    obtain ⟨g1, g2, g3, g4⟩ := gather_fold_spec p.sp_kkt.rowidx (p.sp_kkt.colKs i0)
      (colKs_nodup _ _) (hndK i0) (a.1, qp_kkt_row_w p lam i0 a.2)
    have ha' : ∀ j, (qp_kkt_gather p i0 (a.1, qp_kkt_row_w p lam i0 a.2)).2 j = 0 := by
      intro j
      by_cases hex : ∃ k ∈ p.sp_kkt.colKs i0, p.sp_kkt.rowidx k = j
      · obtain ⟨k, hk, hkj⟩ := hex
        rw [← hkj]
        exact g3 k hk
      · push_neg at hex
        rw [qp_kkt_gather, g4 j hex]
        show qp_kkt_row_w p lam i0 a.2 j = 0
        rw [hw' j]
        refine rowVal_off_support p lam i0 j ?_
        intro hsup
        have := hcover i0 hi0 j hsup
        rw [List.mem_map] at this
        obtain ⟨k, hk, hkj⟩ := this
        exact hex k hk hkj
    obtain ⟨ih1, ih2, ih3⟩ := ih (fun i hi => hl i (List.mem_cons_of_mem i0 hi))
      (qp_kkt_gather p i0 (a.1, qp_kkt_row_w p lam i0 a.2)) ha'
    rw [List.foldl_cons]
    refine ⟨ih1, ?_, ?_⟩
    · intro k hk
      rw [ih2 k (fun i hi => hk i (List.mem_cons_of_mem i0 hi))]
      rw [qp_kkt_gather, g2 k (hk i0 (List.mem_cons_self i0 t))]
    · intro i hi k hk
      rcases List.mem_cons.mp hi with rfl | hit
      · by_cases hex : ∃ i' ∈ t, k ∈ p.sp_kkt.colKs i'
        · obtain ⟨i', hi', hki'⟩ := hex
          have heq : i' = i := by
            by_contra hne
            exact colKs_disjoint p.sp_kkt hmonoK i i' (fun hc => hne hc.symm) k hk hki'
          subst heq
          exact ih3 i' hi' k hki'
        · push_neg at hex
          rw [ih2 k hex, qp_kkt_gather, g1 k hk]
          exact hw' _
      · exact ih3 i hit k hk

theorem casadi_qp_kkt_nz (p : QpData) (st : QpState) :
    (casadi_qp_kkt p st).nz_kkt
      = ((List.range p.nzdim).foldl
          (fun a i => qp_kkt_gather p i (a.1, qp_kkt_row_w p st.lam i a.2))
          (st.nz_kkt, fun _ => 0)).1 := rfl

theorem rowVal_eq_rowSpec (p : QpData) (lam : ℕ → ℚ)
    (hrowAT : ∀ c k, k ∈ p.sp_at.colKs c → p.sp_at.rowidx k < p.nx)
    (hsym : ∀ r, r < p.nx → ∀ c, c < p.nx →
      cscEntry p.sp_h p.nz_h r c = cscEntry p.sp_h p.nz_h c r)
    (hAT : ∀ r, r < p.nx → ∀ c, c < p.na →
      cscEntry p.sp_at p.nz_at r c = cscEntry p.sp_a p.nz_a c r) :
    ∀ i, i < p.nzdim → ∀ j, qp_kkt_rowVal p lam i j = qp_kkt_rowSpec p lam i j := by
  intro i hi j
  unfold qp_kkt_rowVal qp_kkt_rowSpec
  by_cases hix : i < p.nx
  · rw [if_pos hix, if_pos hix]
    by_cases hl : lam i = 0
    · rw [if_pos hl, if_pos hl]
      by_cases hj : j < p.nx
      · rw [if_pos hj, if_pos hj, hsym j hj i hix]
      · rw [if_neg hj, if_neg hj]
    · rw [if_neg hl, if_neg hl]
  · rw [if_neg hix, if_neg hix]
    by_cases hl : lam i = 0
    · rw [if_pos hl, if_pos hl]
    · rw [if_neg hl, if_neg hl]
      by_cases hj : j < p.nx
      · rw [if_pos hj]
        have hna : i - p.nx < p.na := by
          unfold QpData.nzdim at hi
          omega
        exact hAT j hj (i - p.nx) hna
      · rw [if_neg hj]
        refine cscEntry_zero _ _ _ _ ?_
        intro k hk hc
        have := hrowAT (i - p.nx) k hk
        omega

/-- C2: for every activity vector `lam`, `casadi_qp_kkt` fills the nonzeros
of the fixed symbolic KKT pattern so that row `i` of K equals: row `i` of
`[H | Aᵀ]` if `λ_i = 0, i < n`; the identity row `e_iᵀ` if `λ_i ≠ 0, i < n`;
`−e_iᵀ` if `λ_i = 0, i ≥ n`; and row `(i−n)` of `[A | 0]` placed over
columns `[0..n)` if `λ_i ≠ 0, i ≥ n` — with pattern positions not covered
by the selected row set to zero.  Hypotheses: the patterns are valid
(monotone column offsets, no duplicate rows in a column, rows of H and AT
in range), the KKT pattern covers each selected row (it is built as the
union of those rows with identity substituted), `H` is symmetric and `AT`
holds the transpose of `A`. -/
theorem c2_kkt_rows (p : QpData) (st : QpState)
    (hmonoK : ∀ c, p.sp_kkt.colind c ≤ p.sp_kkt.colind (c+1))
    (hndK : ∀ c, (p.sp_kkt.colKs c).Pairwise
      (fun a b => p.sp_kkt.rowidx a ≠ p.sp_kkt.rowidx b))
    (hndH : ∀ c, (p.sp_h.colKs c).Pairwise (fun a b => p.sp_h.rowidx a ≠ p.sp_h.rowidx b))
    (hndA : ∀ c, (p.sp_a.colKs c).Pairwise (fun a b => p.sp_a.rowidx a ≠ p.sp_a.rowidx b))
    (hndAT : ∀ c, (p.sp_at.colKs c).Pairwise
      (fun a b => p.sp_at.rowidx a ≠ p.sp_at.rowidx b))
    (hrowH : ∀ c k, k ∈ p.sp_h.colKs c → p.sp_h.rowidx k < p.nx)
    (hrowAT : ∀ c k, k ∈ p.sp_at.colKs c → p.sp_at.rowidx k < p.nx)
    (hcover : ∀ i < p.nzdim, ∀ j ∈ qp_kkt_rowSupport p st.lam i,
      j ∈ (p.sp_kkt.colKs i).map p.sp_kkt.rowidx)
    (hsym : ∀ r, r < p.nx → ∀ c, c < p.nx →
      cscEntry p.sp_h p.nz_h r c = cscEntry p.sp_h p.nz_h c r)
    (hAT : ∀ r, r < p.nx → ∀ c, c < p.na →
      cscEntry p.sp_at p.nz_at r c = cscEntry p.sp_a p.nz_a c r) :
    ∀ i, i < p.nzdim → ∀ k ∈ p.sp_kkt.colKs i,
      (casadi_qp_kkt p st).nz_kkt k = qp_kkt_rowSpec p st.lam i (p.sp_kkt.rowidx k) := by
  intro i hi k hk
  obtain ⟨_, _, hval⟩ := kkt_fold_spec p st.lam hmonoK hndK hndH hndA hndAT hrowH hcover
    (List.range p.nzdim) (fun i hi => List.mem_range.mp hi)
    (st.nz_kkt, fun _ => 0) (fun _ => rfl)
  rw [casadi_qp_kkt_nz, hval i (List.mem_range.mpr hi) k hk,
    rowVal_eq_rowSpec p st.lam hrowAT hsym hAT i hi]

theorem spUnit_colKs_ge1 (c : ℕ) (hc : 1 ≤ c) : spUnit.colKs c = [] := by
  unfold Sp.colKs
  have e : spUnit.colind (c+1) - spUnit.colind c = 0 := by
    show min (c+1) 1 - min c 1 = 0
    omega
  rw [e]
  rfl

theorem spFull2_colKs_ge2 (c : ℕ) (hc : 2 ≤ c) : spFull2.colKs c = [] := by
  unfold Sp.colKs
  have e : spFull2.colind (c+1) - spFull2.colind c = 0 := by
    show 2 * min (c+1) 2 - 2 * min c 2 = 0
    omega
  rw [e]
  rfl

theorem spUnit_colKs0 : spUnit.colKs 0 = [0] := by decide

theorem spFull2_colKs0 : spFull2.colKs 0 = [0, 1] := by decide

theorem spFull2_colKs1 : spFull2.colKs 1 = [2, 3] := by decide

/-- Witness for C2 at the concrete instance `p_w`, `st_w`. -/
theorem c2_witness :
    0 < p_w.nzdim ∧ 0 ∈ p_w.sp_kkt.colKs 0 ∧
    (casadi_qp_kkt p_w st_w).nz_kkt 0
      = qp_kkt_rowSpec p_w st_w.lam 0 (p_w.sp_kkt.rowidx 0) := by
  refine ⟨by decide, by decide, ?_⟩
  refine c2_kkt_rows p_w st_w ?_ ?_ ?_ ?_ ?_ ?_ ?_ ?_ ?_ ?_ 0 (by decide) 0 (by decide)
  · intro c
    show 2 * min c 2 ≤ 2 * min (c+1) 2
    omega
  · intro c
    rcases Nat.lt_or_ge c 2 with h | h
    · interval_cases c
      · rw [show p_w.sp_kkt.colKs 0 = [0, 1] from spFull2_colKs0]
        decide
      · rw [show p_w.sp_kkt.colKs 1 = [2, 3] from spFull2_colKs1]
        decide
    · rw [show p_w.sp_kkt.colKs c = [] from spFull2_colKs_ge2 c h]
      exact List.Pairwise.nil
  · intro c
    rcases Nat.lt_or_ge c 1 with h | h
    · interval_cases c
      rw [show p_w.sp_h.colKs 0 = [0] from spUnit_colKs0]
      exact List.pairwise_singleton _ _
    · rw [show p_w.sp_h.colKs c = [] from spUnit_colKs_ge1 c h]
      exact List.Pairwise.nil
  · intro c
    rcases Nat.lt_or_ge c 1 with h | h
    · interval_cases c
      rw [show p_w.sp_a.colKs 0 = [0] from spUnit_colKs0]
      exact List.pairwise_singleton _ _
    · rw [show p_w.sp_a.colKs c = [] from spUnit_colKs_ge1 c h]
      exact List.Pairwise.nil
  · intro c
    rcases Nat.lt_or_ge c 1 with h | h
    · interval_cases c
      rw [show p_w.sp_at.colKs 0 = [0] from spUnit_colKs0]
      exact List.pairwise_singleton _ _
    · rw [show p_w.sp_at.colKs c = [] from spUnit_colKs_ge1 c h]
      exact List.Pairwise.nil
  · intro c k _
    exact Nat.one_pos
  · intro c k _
    exact Nat.one_pos
  · intro i hi j hj
    have hnz : p_w.nzdim = 2 := rfl
    rw [hnz] at hi
    interval_cases i
    · have hs : qp_kkt_rowSupport p_w st_w.lam 0 = [0] := by
        unfold qp_kkt_rowSupport
        norm_num [p_w, st_w]
      rw [hs] at hj
      rw [show p_w.sp_kkt.colKs 0 = [0, 1] from spFull2_colKs0]
      rcases List.mem_singleton.mp hj with rfl
      decide
    · have hs : qp_kkt_rowSupport p_w st_w.lam 1 = [0] := by
        unfold qp_kkt_rowSupport
        rw [if_neg (by norm_num [p_w])]
        rw [if_neg (by norm_num [st_w])]
        rw [show (1 : ℕ) - p_w.nx = 0 from rfl,
          show p_w.sp_at.colKs 0 = [0] from spUnit_colKs0]
        rfl
      rw [hs] at hj
      rw [show p_w.sp_kkt.colKs 1 = [2, 3] from spFull2_colKs1]
      rcases List.mem_singleton.mp hj with rfl
      decide
  · intro r hr c hc
    have hr' : r = 0 := by
      have : p_w.nx = 1 := rfl
      omega
    have hc' : c = 0 := by
      have : p_w.nx = 1 := rfl
      omega
    rw [hr', hc']
  · intro r hr c hc
    have hr' : r = 0 := by
      have : p_w.nx = 1 := rfl
      omega
    have hc' : c = 0 := by
      have : p_w.na = 1 := rfl
      omega
    rw [hr', hc']
    rfl

theorem calc_dependent_activity (p : QpData) (st : QpState) (hdmin : 0 < p.dmin)
    (i : ℕ) : ((casadi_qp_calc_dependent p st).lam i = 0 ↔ st.lam i = 0) := by
  rw [calc_dependent_lam]
  unfold qp_lam1
  by_cases hi : i < p.nx
  · rw [if_pos hi]
    rcases lt_trichotomy (st.lam i) 0 with h | h | h
    · rw [if_neg (by linarith), if_pos h]
      constructor
      · intro hc
        exfalso
        have hle := min_le_right (-(qp_infeas0 p st (qp_z1 p st) i)) (-p.dmin)
        rw [hc] at hle
        linarith
      · intro hc
        linarith
    · rw [if_neg (by rw [h]; exact lt_irrefl 0), if_neg (by rw [h]; exact lt_irrefl 0)]
    · rw [if_pos h]
      constructor
      · intro hc
        exfalso
        have hle := le_max_right (-(qp_infeas0 p st (qp_z1 p st) i)) p.dmin
        rw [hc] at hle
        linarith
      · intro hc
        linarith
  · rw [if_neg hi]

theorem clamp_zero_iff (lam0 lam1 dmin : ℚ) (nz : Bool) (hdmin : 0 < dmin) :
    (if (if nz = true ∧ (if (if lam0 > 0 then (1 : ℤ) else if lam0 < 0 then -1 else 0) < 0
            then lam1 > 0 else lam1 < 0)
          then -(if lam0 > 0 then (1 : ℤ) else if lam0 < 0 then -1 else 0)
          else (if lam0 > 0 then (1 : ℤ) else if lam0 < 0 then -1 else 0)) = -1
      then min lam1 (-dmin)
      else if (if nz = true ∧ (if (if lam0 > 0 then (1 : ℤ) else if lam0 < 0 then -1 else 0) < 0
            then lam1 > 0 else lam1 < 0)
          then -(if lam0 > 0 then (1 : ℤ) else if lam0 < 0 then -1 else 0)
          else (if lam0 > 0 then (1 : ℤ) else if lam0 < 0 then -1 else 0)) = 1
      then max lam1 dmin else 0) = 0
    ↔ lam0 = 0 := by
  rcases lt_trichotomy lam0 0 with h | h | h
  · have h1 : ¬(lam0 > 0) := by linarith
    simp only [if_neg h1, if_pos h, if_pos (show (-1 : ℤ) < 0 by norm_num), neg_neg]
    by_cases hc : nz = true ∧ lam1 > 0
    · rw [if_pos hc, if_neg (by norm_num), if_pos rfl]
      constructor
      · intro hcc
        exfalso
        have hle := le_max_right lam1 dmin
        rw [hcc] at hle
        linarith
      · intro hcc
        linarith
    · rw [if_neg hc, if_pos rfl]
      constructor
      · intro hcc
        exfalso
        have hle := min_le_right lam1 (-dmin)
        rw [hcc] at hle
        linarith
      · intro hcc
        linarith
  · have h1 : ¬(lam0 > 0) := by rw [h]; exact lt_irrefl 0
    have h2 : ¬(lam0 < 0) := by rw [h]; exact lt_irrefl 0
    simp only [if_neg h1, if_neg h2, if_neg (show ¬((0 : ℤ) < 0) by norm_num), neg_zero,
      ite_self, if_neg (show ¬((0 : ℤ) = -1) by norm_num),
      if_neg (show ¬((0 : ℤ) = 1) by norm_num)]
    simp [h]
  · simp only [if_pos h, if_neg (show ¬((1 : ℤ) < 0) by norm_num)]
    by_cases hc : nz = true ∧ lam1 < 0
    · rw [if_pos hc]
      rw [if_pos (show (-(1 : ℤ)) = -1 by norm_num)]
      constructor
      · intro hcc
        exfalso
        have hle := min_le_right lam1 (-dmin)
        rw [hcc] at hle
        linarith
      · intro hcc
        linarith
    · rw [if_neg hc, if_neg (by norm_num), if_pos rfl]
      constructor
      · intro hcc
        exfalso
        have hle := le_max_right lam1 dmin
        rw [hcc] at hle
        linarith
      · intro hcc
        linarith

theorem take_step_activity (p : QpData) (st : QpState) (hdmin : 0 < p.dmin)
    (i : ℕ) : ((casadi_qp_take_step p st).lam i = 0 ↔ st.lam i = 0) := by
  show (if i < p.nzdim then _ else st.lam i) = 0 ↔ _
  by_cases hi : i < p.nzdim
  · rw [if_pos hi]
    exact clamp_zero_iff (st.lam i) (st.lam i + st.tau * st.dlam i) p.dmin
      (p.neverzero i) hdmin
  · rw [if_neg hi]

theorem flip_check_fst (p : QpData) (orc : QrOracle) (st : QpState)
    (index : ℕ) (sign : ℤ) (e : ℚ) :
    (casadi_qp_flip_check p orc st index sign e).1
      = { st with dz := qp_flip_check_dz p orc st index sign } := by
  unfold casadi_qp_flip_check
  split <;> rfl

theorem flip_commit_lam (p : QpData) (orc : QrOracle) (st : QpState) (ix : ℤ × ℤ)
    (i : ℕ) (hij : i ≠ ix.1.toNat) :
    (qp_flip_commit p orc st ix).lam i = st.lam i := by
  show (if i = ix.1.toNat then _ else _) = st.lam i
  rw [if_neg hij]
  show (if st.sing = 0 then
      (casadi_qp_flip_check p orc st ix.1.toNat ix.2
        (max (p.du_to_pr * st.pr) st.du)).1
    else st).lam i = st.lam i
  split
  · rw [flip_check_fst]
  · rfl

theorem flip_activity (p : QpData) (orc : QrOracle) (st : QpState)
    (index sign r_index r_sign : ℤ) (hdmin : 0 < p.dmin) :
    ∃ j : ℕ, ∀ i : ℕ, i ≠ j →
      ((casadi_qp_flip p orc st index sign r_index r_sign).1.lam i = 0 ↔ st.lam i = 0) := by
  by_cases hcommit : 0 ≤ (qp_flip_select p st index sign r_index r_sign).1
  · refine ⟨(qp_flip_select p st index sign r_index r_sign).1.toNat, ?_⟩
    intro i hij
    unfold casadi_qp_flip
    rw [if_pos hcommit]
    show (casadi_qp_calc_dependent p
      (qp_flip_commit p orc st (qp_flip_select p st index sign r_index r_sign))).lam i = 0
        ↔ st.lam i = 0
    rw [calc_dependent_activity p _ hdmin,
      flip_commit_lam p orc st (qp_flip_select p st index sign r_index r_sign) i hij]
  · refine ⟨0, ?_⟩
    intro i _
    unfold casadi_qp_flip
    rw [if_neg hcommit]

theorem scale_step_core_lam (p : QpData) (orc : QrOracle) (st : QpState)
    (pos_ok neg_ok : Bool) (terr : ℚ) :
    (qp_scale_step_core p orc st pos_ok neg_ok terr).2.1.lam = st.lam := by
  unfold qp_scale_step_core
  split <;> rfl

theorem scale_step_lam (p : QpData) (orc : QrOracle) (st : QpState) :
    ∀ res, casadi_qp_scale_step p orc st = some res → res.2.1.lam = st.lam := by
  intro res h
  unfold casadi_qp_scale_step at h
  split at h
  · rw [Option.some_inj] at h
    rw [← h]
  · split at h
    · cases h
    · rw [Option.some_inj] at h
      rw [← h]
      exact scale_step_core_lam p orc st _ _ _

theorem calc_step_lam (p : QpData) (orc : QrOracle) (st : QpState) :
    ∀ res, casadi_qp_calc_step p orc st = some res → res.2.1.lam = st.lam := by
  intro res h
  unfold casadi_qp_calc_step at h
  rw [scale_step_lam p orc (qp_calc_step_prep p orc st) res h]
  rfl

theorem factorize_lam (p : QpData) (orc : QrOracle) (st : QpState) :
    (casadi_qp_factorize p orc st).lam = st.lam := rfl

theorem primal_blocking_lam (p : QpData) (st : QpState) (e : ℚ) (index sign : ℤ) :
    (casadi_qp_primal_blocking p st e index sign).1.lam = st.lam := by
  unfold casadi_qp_primal_blocking
  split <;> rfl

theorem dual_blocking_st2_lam (p : QpData) (st1 : QpState) (i : ℕ) :
    (qp_dual_blocking_st2 p st1 i).lam = st1.lam := by
  unfold qp_dual_blocking_st2
  split
  · rfl
  · split <;> rfl

theorem dual_blocking_loop_lam (p : QpData) (e : ℚ) :
    ∀ (bps : List (ℚ × ℤ)) (st : QpState) (tau_k : ℚ),
      (qp_dual_blocking_loop p e bps st tau_k).1.lam = st.lam := by
  intro bps
  induction bps with
  | nil => intro st tau_k; rfl
  | cons b rest ih =>
    intro st tau_k
    obtain ⟨tj, ij⟩ := b
    show (qp_dual_blocking_loop p e ((tj, ij) :: rest) st tau_k).1.lam = st.lam
    unfold qp_dual_blocking_loop
    split
    · rfl
    · split
      · rfl
      · rw [ih, dual_blocking_st2_lam]
        rfl

theorem dual_blocking_lam (p : QpData) (st : QpState) (e : ℚ) :
    (casadi_qp_dual_blocking p st e).1.lam = st.lam := by
  unfold casadi_qp_dual_blocking
  rw [dual_blocking_loop_lam]

theorem linesearch_db_lam (p : QpData) (st : QpState) :
    (qp_linesearch_db p st).1.lam = st.lam := by
  unfold qp_linesearch_db
  rw [dual_blocking_lam]
  unfold qp_linesearch_pb
  rw [primal_blocking_lam]

theorem linesearch_activity (p : QpData) (st : QpState) (hdmin : 0 < p.dmin)
    (i : ℕ) : ((casadi_qp_linesearch p st).1.lam i = 0 ↔ st.lam i = 0) := by
  show (casadi_qp_take_step p (qp_linesearch_db p st).1).lam i = 0 ↔ st.lam i = 0
  rw [take_step_activity p _ hdmin i, linesearch_db_lam]

/-- C5: within one driver iteration — dependent-quantity update, active-set
flip, factorization, step computation and line search — the activity
pattern (the set of indices with `λ_i ≠ 0`) changes at no more than one
index (the one committed by `casadi_qp_flip`; the companion commit in the
source is unreachable, so at most the pair claimed); `casadi_qp_take_step`
and `casadi_qp_calc_dependent` map `λ_i = 0` to `λ_i = 0` and `λ_i ≠ 0` to
`λ_i ≠ 0` for every `i` and every step length `tau`. -/
theorem c5_active_set_single_change (p : QpData) (orc : QrOracle) (st : QpState)
    (index sign r_index r_sign : ℤ) (hdmin : 0 < p.dmin) :
    (∀ i, ((casadi_qp_calc_dependent p st).lam i = 0 ↔ st.lam i = 0)) ∧
    (∀ i, ((casadi_qp_take_step p st).lam i = 0 ↔ st.lam i = 0)) ∧
    (∀ res, casadi_qp_calc_step p orc
        (casadi_qp_factorize p orc
          (casadi_qp_flip p orc (casadi_qp_calc_dependent p st)
            index sign r_index r_sign).1) = some res →
      ∃ j : ℕ, ∀ i : ℕ, i ≠ j →
        (((casadi_qp_linesearch p res.2.1).1.lam i = 0) ↔ (st.lam i = 0))) := by
  refine ⟨fun i => calc_dependent_activity p st hdmin i,
    fun i => take_step_activity p st hdmin i, ?_⟩
  intro res hres
  obtain ⟨j, hflip⟩ := flip_activity p orc (casadi_qp_calc_dependent p st)
    index sign r_index r_sign hdmin
  refine ⟨j, ?_⟩
  intro i hij
  rw [linesearch_activity p _ hdmin i, calc_step_lam p orc _ res hres, factorize_lam,
    hflip i hij, calc_dependent_activity p st hdmin i]

theorem c5_witness :
    0 < p_w.dmin ∧
    ((∀ i, ((casadi_qp_calc_dependent p_w st_w).lam i = 0 ↔ st_w.lam i = 0)) ∧
     (∀ i, ((casadi_qp_take_step p_w st_w).lam i = 0 ↔ st_w.lam i = 0)) ∧
     (∀ res, casadi_qp_calc_step p_w orcTriv
         (casadi_qp_factorize p_w orcTriv
           (casadi_qp_flip p_w orcTriv (casadi_qp_calc_dependent p_w st_w)
             (-1) 0 (-1) 0).1) = some res →
       ∃ j : ℕ, ∀ i : ℕ, i ≠ j →
         (((casadi_qp_linesearch p_w res.2.1).1.lam i = 0) ↔ (st_w.lam i = 0)))) :=
  ⟨by norm_num [p_w],
    c5_active_set_single_change p_w orcTriv st_w (-1) 0 (-1) 0 (by norm_num [p_w])⟩

theorem qp_eval_loop_no_fuelOut (p : QpData) (orc : QrOracle) (max_iter : ℕ) :
    ∀ (fuel iter : ℕ) (st : QpState) (index sign r_index r_sign : ℤ),
      iter ≤ max_iter → max_iter + 2 ≤ fuel + iter →
      qp_eval_loop p orc max_iter fuel iter st index sign r_index r_sign
        ≠ LoopRes.fuelOut := by
  intro fuel
  induction fuel with
  | zero =>
    intro iter st index sign r_index r_sign h1 h2 _
    omega
  | succ fuel ih =>
    intro iter st index sign r_index r_sign h1 h2
    unfold qp_eval_loop
    split
    · exact fun hc => LoopRes.noConfusion hc
    · split
      · exact fun hc => LoopRes.noConfusion hc
      · split
        · exact fun hc => LoopRes.noConfusion hc
        · split
          · exact fun hc => LoopRes.noConfusion hc
          · exact ih (iter+1) _ _ _ _ _ (by omega) (by omega)

/-- C3: when initialization succeeds, `eval` returns through the loop with
flag 0 exactly on the `index = -1` (converged) exit and flag 1 exactly on
the iteration-cap and direction-failure exits, and in every such return the
outputs X, LAM_X, LAM_A, COST are populated from the current iterate
`(z, λ, f)`; the only other possibility is the out-of-bounds read inside
`casadi_qp_scale_step` (the loop never runs out of fuel). -/
theorem c3_eval_return (q : QpProb) (orc : QrOracle) (h : isInitError q = false) :
    (∃ kind st,
      conicActiveSet_eval q orc
        = EvalRes.ok (exitFlag kind)
            (fun i => if i < q.nx then st.z i else 0)
            (fun i => if i < q.nx then st.lam i else 0)
            (fun i => if i < q.na then st.lam (q.nx + i) else 0)
            st.f st
      ∧ (exitFlag kind = 0 ↔ kind = ExitKind.converged)
      ∧ (exitFlag kind = 1 ↔ (kind = ExitKind.maxIterReached ∨ kind = ExitKind.dirFail)))
    ∨ conicActiveSet_eval q orc = EvalRes.oob := by
  unfold isInitError at h
  rcases hinit : qp_init_lam q with j | lam
  · rw [hinit] at h
    simp at h
  · rcases hloop : qp_eval_loop q.data orc q.max_iter (q.max_iter + 2) 0
        (qp_init_state q lam) (-2) 0 (-2) 0 with ⟨kind, st⟩ | _ | _
    · left
      refine ⟨kind, st, ?_, ?_, ?_⟩
      · simp only [conicActiveSet_eval, hinit, hloop]
      · cases kind <;> simp [exitFlag]
      · cases kind <;> simp [exitFlag]
    · right
      simp only [conicActiveSet_eval, hinit, hloop]
    · exact absurd hloop
        (qp_eval_loop_no_fuelOut q.data orc q.max_iter (q.max_iter + 2) 0
          (qp_init_state q lam) (-2) 0 (-2) 0 (by omega) (by omega))

theorem prob10_init : isInitError prob10 = false := by
  norm_num [isInitError, qp_init_lam, qp_init_step, prob10, QpProb.lbz, QpProb.ubz,
    List.range_succ, ER.isinfB, beq_iff_eq]

theorem c3_witness :
    isInitError prob10 = false ∧
    ((∃ kind st,
      conicActiveSet_eval prob10 oracle10
        = EvalRes.ok (exitFlag kind)
            (fun i => if i < prob10.nx then st.z i else 0)
            (fun i => if i < prob10.nx then st.lam i else 0)
            (fun i => if i < prob10.na then st.lam (prob10.nx + i) else 0)
            st.f st
      ∧ (exitFlag kind = 0 ↔ kind = ExitKind.converged)
      ∧ (exitFlag kind = 1 ↔ (kind = ExitKind.maxIterReached ∨ kind = ExitKind.dirFail)))
    ∨ conicActiveSet_eval prob10 oracle10 = EvalRes.oob) :=
  ⟨prob10_init, c3_eval_return prob10 oracle10 prob10_init⟩

theorem prob10_lam : qp_init_lam prob10 = Except.ok (fun _ => (0:ℚ)) := by
  unfold qp_init_lam
  rw [show List.range (prob10.nx + prob10.na) = [0] by decide]
  show qp_init_step prob10 (Except.ok prob10.lam0) 0 = _
  unfold qp_init_step
  norm_num [prob10, QpProb.lbz, QpProb.ubz, QpProb.lam0, ER.isinfB, beq_iff_eq,
    qp_init_value]

/-- The initial state of the C10 failing input. -/
def st10 : QpState := qp_init_state prob10 (fun _ => 0)

theorem flip_start (p : QpData) (orc : QrOracle) (st : QpState) :
    casadi_qp_flip p orc st (-2) 0 (-2) 0 = (st, -2, 0) := by
  have hix : qp_flip_ix1 p st (-2) 0 (-2) 0 = (-2, 0) := by
    unfold qp_flip_ix1
    rw [if_neg]
    rintro ⟨h, -⟩
    omega
  have hsel : qp_flip_select p st (-2) 0 (-2) 0 = (-2, 0) := by
    unfold qp_flip_select
    rw [hix, if_neg]
    rintro ⟨h, -⟩
    exact absurd h (by decide)
  unfold casadi_qp_flip
  rw [hsel, if_neg (by decide : ¬(0 : ℤ) ≤ ((-2 : ℤ), (0 : ℤ)).1)]

theorem st10_prAcc : qp_prAcc prob10.data (qp_z1 prob10.data st10) = (0, -1) := by
  norm_num [qp_prAcc, qp_z1, st10, qp_init_state, prob10, QpProb.data, QpProb.lbz, QpProb.ubz,
    QpData.nzdim, List.range_succ, ER.blt, ER.addQ, ER.subQ, ER.finPart]

theorem st10_duAcc :
    qp_duAcc prob10.data (casadi_qp_calc_dependent prob10.data st10).infeas = (0, -1) := by
  rw [calc_dependent_infeas]
  norm_num [qp_duAcc, qp_infeas0, qp_lam1, qp_z1, st10, qp_init_state, prob10, QpProb.data,
    QpProb.lbz, QpProb.ubz, QpData.nzdim, List.range_succ, cscMvRow, cscMvTCol, Sp.colKs,
    spUnit, spCols, List.range']

theorem factorize_pr (p : QpData) (orc : QrOracle) (st : QpState) :
    (casadi_qp_factorize p orc st).pr = st.pr := rfl

theorem factorize_du (p : QpData) (orc : QrOracle) (st : QpState) :
    (casadi_qp_factorize p orc st).du = st.du := rfl

theorem factorize_ipr (p : QpData) (orc : QrOracle) (st : QpState) :
    (casadi_qp_factorize p orc st).ipr = st.ipr := rfl

theorem prep_pr (p : QpData) (orc : QrOracle) (st : QpState) :
    (qp_calc_step_prep p orc st).pr = st.pr := rfl

theorem prep_du (p : QpData) (orc : QrOracle) (st : QpState) :
    (qp_calc_step_prep p orc st).du = st.du := rfl

theorem prep_ipr (p : QpData) (orc : QrOracle) (st : QpState) :
    (qp_calc_step_prep p orc st).ipr = st.ipr := rfl

theorem prep_sing (p : QpData) (orc : QrOracle) (st : QpState) :
    (qp_calc_step_prep p orc st).sing = st.sing := rfl

theorem okadj_none (p : QpData) (st : QpState)
    (h1 : p.du_to_pr * st.pr ≥ st.du) (h2 : st.ipr < 0) :
    qp_scale_step_okadj p st = none := by
  unfold qp_scale_step_okadj
  rw [if_pos h1, if_pos h2]

theorem scale_step_none (p : QpData) (orc : QrOracle) (st : QpState)
    (hs : ¬ st.sing = 0) (hok : qp_scale_step_okadj p st = none) :
    casadi_qp_scale_step p orc st = none := by
  unfold casadi_qp_scale_step
  rw [if_neg hs, hok]

theorem calc_step_none (p : QpData) (orc : QrOracle) (st : QpState)
    (hs : ¬ (qp_calc_step_prep p orc st).sing = 0)
    (hok : qp_scale_step_okadj p (qp_calc_step_prep p orc st) = none) :
    casadi_qp_calc_step p orc st = none := by
  unfold casadi_qp_calc_step
  exact scale_step_none p orc _ hs hok

theorem st10_calc_step :
    casadi_qp_calc_step prob10.data oracle10
      (casadi_qp_factorize prob10.data oracle10 (casadi_qp_calc_dependent prob10.data st10))
      = none := by
  apply calc_step_none
  · rw [prep_sing, show (casadi_qp_factorize prob10.data oracle10
      (casadi_qp_calc_dependent prob10.data st10)).sing = 1 from rfl]
    decide
  · apply okadj_none
    · rw [prep_pr, factorize_pr, prep_du, factorize_du, calc_dependent_pr,
        calc_dependent_du, st10_prAcc, st10_duAcc]
      norm_num [prob10, QpProb.data]
    · rw [prep_ipr, factorize_ipr, calc_dependent_ipr, st10_prAcc]
      decide

theorem st10_loop :
    qp_eval_loop prob10.data oracle10 prob10.max_iter (prob10.max_iter + 2) 0
      st10 (-2) 0 (-2) 0 = LoopRes.oob := by
  have hfl : qp_iter_fl prob10.data oracle10 st10 (-2) 0 (-2) 0
      = (casadi_qp_calc_dependent prob10.data st10, -2, 0) := by
    unfold qp_iter_fl
    exact flip_start _ _ _
  have hst3 : qp_iter_st3 prob10.data oracle10 st10 (-2) 0 (-2) 0
      = casadi_qp_factorize prob10.data oracle10
          (casadi_qp_calc_dependent prob10.data st10) := by
    unfold qp_iter_st3
    rw [hfl]
  show qp_eval_loop prob10.data oracle10 prob10.max_iter (prob10.max_iter + 1 + 1) 0
    st10 (-2) 0 (-2) 0 = LoopRes.oob
  unfold qp_eval_loop
  rw [hfl]
  rw [if_neg (by decide :
    ¬ ((casadi_qp_calc_dependent prob10.data st10, (-2 : ℤ), (0 : ℤ)).2.1 = -1))]
  rw [if_neg (by decide : ¬ (prob10.max_iter ≤ 0))]
  rw [hst3, st10_calc_step]

/-- C10: refuted — the claim says the `lam[ipr]`/`dlam[ipr]` accesses in
`casadi_qp_scale_step` always have `ipr ≥ 0`.  On the input `prob10` (one
variable, `H` a stored zero, wide box, optimal start `x0 = 0`, `lam0 = 0`)
the very first driver iteration factorizes a numerically zero KKT matrix,
enters the singular branch of `casadi_qp_scale_step` with `pr = du = 0`,
takes the `du_to_pr·pr ≥ du` test with `ipr = -1`, and the C reads
`lam[-1]` out of bounds — modelled by the `none` result of
`casadi_qp_scale_step` and the `oob` outcome of `eval`. -/
theorem c10_oob_read : conicActiveSet_eval prob10 oracle10 = EvalRes.oob := by
  simp only [conicActiveSet_eval, prob10_lam]
  rw [show qp_init_state prob10 (fun _ => (0:ℚ)) = st10 from rfl]
  rw [st10_loop]

theorem cdc1_prAcc : qp_prAcc p_c1 (qp_z1 p_c1 st_c1) = (0, -1) := by
  norm_num [qp_prAcc, qp_z1, st_c1, p_c1, QpData.nzdim, List.range_succ, ER.blt, ER.addQ,
    ER.subQ, ER.finPart, cscMvRow, Sp.colKs, spUnit, spCols, List.range']

theorem cdc1_pr : (casadi_qp_calc_dependent p_c1 st_c1).pr = 0 := by
  rw [calc_dependent_pr, cdc1_prAcc]

theorem cdc1_ipr : (casadi_qp_calc_dependent p_c1 st_c1).ipr = -1 := by
  rw [calc_dependent_ipr, cdc1_prAcc]

theorem cdc1_infeas0 : (casadi_qp_calc_dependent p_c1 st_c1).infeas 0 = 2 := by
  rw [calc_dependent_infeas]
  norm_num [qp_infeas0, qp_lam1, qp_z1, st_c1, p_c1, cscMvRow, cscMvTCol, Sp.colKs,
    spUnit, spCols, List.range', List.range_succ]

theorem cdc1_duAcc :
    qp_duAcc p_c1 (casadi_qp_calc_dependent p_c1 st_c1).infeas = (2, 0) := by
  rw [calc_dependent_infeas]
  norm_num [qp_duAcc, qp_infeas0, qp_lam1, qp_z1, st_c1, p_c1, QpData.nzdim, cscMvRow,
    cscMvTCol, Sp.colKs, spUnit, spCols, List.range', List.range_succ]

theorem cdc1_du : (casadi_qp_calc_dependent p_c1 st_c1).du = 2 := by
  rw [calc_dependent_du, cdc1_duAcc]

theorem cdc1_idu : (casadi_qp_calc_dependent p_c1 st_c1).idu = 0 := by
  rw [calc_dependent_idu, cdc1_duAcc]

theorem cdc1_lam0 : (casadi_qp_calc_dependent p_c1 st_c1).lam 0 = 0 := by
  rw [calc_dependent_lam]
  norm_num [qp_lam1, st_c1, p_c1]

theorem cdc1_lam1 : (casadi_qp_calc_dependent p_c1 st_c1).lam 1 = 1 := by
  rw [calc_dependent_lam]
  norm_num [qp_lam1, st_c1, p_c1]

theorem cdc1_du_index :
    casadi_qp_du_index p_c1 (casadi_qp_calc_dependent p_c1 st_c1) = 1 := by
  unfold casadi_qp_du_index
  rw [cdc1_idu]
  rw [if_pos (by decide : (0 : ℤ) ≤ 0)]
  norm_num [QpData.nzdim, List.range_succ, cscMvRow, Sp.colKs, spUnit, List.range',
    casadi_qp_du_check, cdc1_lam0, cdc1_lam1, cdc1_infeas0, cdc1_du,
    show p_c1.nx = 1 from rfl, show p_c1.na = 1 from rfl,
    show p_c1.sp_a = spUnit from rfl, show p_c1.nz_a = (fun _ => (1:ℚ)) from rfl,
    show p_c1.sp_at = spUnit from rfl, show p_c1.nz_at = (fun _ => (1:ℚ)) from rfl]

theorem cdc1_select :
    qp_flip_select p_c1 (casadi_qp_calc_dependent p_c1 st_c1) (-1) 0 (-1) 0 = (1, 0) := by
  have hix : qp_flip_ix1 p_c1 (casadi_qp_calc_dependent p_c1 st_c1) (-1) 0 (-1) 0
      = (-1, 0) := by
    unfold qp_flip_ix1
    rw [if_neg]
    rintro ⟨h, -⟩
    exact absurd h (by decide)
  have hc : (((-1 : ℤ), (0 : ℤ)).1 = -1
      ∧ eps16 < (casadi_qp_calc_dependent p_c1 st_c1).tau
      ∧ (0 ≤ (casadi_qp_calc_dependent p_c1 st_c1).ipr
         ∨ 0 ≤ (casadi_qp_calc_dependent p_c1 st_c1).idu)) := by
    refine ⟨by decide, ?_, Or.inr (le_of_eq cdc1_idu.symm)⟩
    rw [show (casadi_qp_calc_dependent p_c1 st_c1).tau = 1 from rfl]
    norm_num [eps16]
  unfold qp_flip_select
  rw [hix, if_pos hc, cdc1_pr, cdc1_du]
  rw [if_neg (by norm_num [show p_c1.du_to_pr = 1000 from rfl] :
    ¬ p_c1.du_to_pr * (0 : ℚ) ≥ 2)]
  rw [cdc1_du_index, if_pos (by decide : (0 : ℤ) ≤ 1)]

/-- C1: refuted as stated — the state `st_c1` (active equality constraint
with `λ = (0, 1)`, primal-feasible iterate, singular flag set) satisfies the
permitted-sign invariant, yet the dependent-update + flip stage of the next
driver iteration (entered with no pending candidate, as after a converged
line search) commits the `du_index` candidate, which carries sign 0 and has
no `neverzero` guard in the source, leaving `λ_1 = 0` on the equality
constraint with `neverzero_1 = true`. -/
theorem c1_counterexample :
    signOk p_c1 st_c1.lam
    ∧ (1 : ℕ) < p_c1.nzdim
    ∧ p_c1.neverzero 1 = true
    ∧ (qp_iter_fl p_c1 orcTriv st_c1 (-1) 0 (-1) 0).1.lam 1 = 0 := by
  refine ⟨?_, by decide, by decide, ?_⟩
  · intro i hi
    have h2 : p_c1.nzdim = 2 := rfl
    rw [h2] at hi
    interval_cases i <;>
      refine ⟨fun h => ?_, fun h => ?_, fun h => ?_⟩ <;>
        first
          | rfl
          | norm_num [st_c1] at h
  · unfold qp_iter_fl
    unfold casadi_qp_flip
    rw [cdc1_select]
    rw [if_pos (by decide : (0 : ℤ) ≤ ((1 : ℤ), (0 : ℤ)).1)]
    show (casadi_qp_calc_dependent p_c1
      (qp_flip_commit p_c1 orcTriv (casadi_qp_calc_dependent p_c1 st_c1)
        ((1 : ℤ), (0 : ℤ)))).lam 1 = 0
    rw [calc_dependent_lam]
    unfold qp_lam1
    rw [if_neg (by decide : ¬ (1 : ℕ) < p_c1.nx)]
    norm_num [qp_flip_commit]

/-- The permitted-sign clauses at one index, phrased on the raw bounds (as
the masks are derived from them by `eval`). -/
def initClauses (q : QpProb) (lam : ℕ → ℚ) (i : ℕ) : Prop :=
  (0 < lam i → (q.ubz i).isinfB = false)
  ∧ (lam i < 0 → (q.lbz i).isinfB = false)
  ∧ (lam i = 0 → (q.lbz i == q.ubz i) = false)

theorem init_value_clauses (q : QpProb) (lam : ℕ → ℚ) (i : ℕ) (hd : 0 < q.dmin)
    (hne : ¬(((q.lbz i == q.ubz i) = true) ∧ ((q.ubz i).isinfB = true)
      ∧ ((q.lbz i).isinfB = true))) :
    (0 < qp_init_value q lam i → (q.ubz i).isinfB = false)
    ∧ (qp_init_value q lam i < 0 → (q.lbz i).isinfB = false)
    ∧ (qp_init_value q lam i = 0 → (q.lbz i == q.ubz i) = false) := by
  unfold qp_init_value
  by_cases hb1 : ((q.lbz i == q.ubz i) = true) ∧ lam i = 0
  · rw [if_pos hb1]
    have hbeq : q.lbz i = q.ubz i := by
      have h := hb1.1
      rwa [beq_iff_eq] at h
    have hnu : (q.ubz i).isinfB = false := by
      cases hc : (q.ubz i).isinfB
      · rfl
      · exact absurd ⟨hb1.1, hc, by rw [hbeq]; exact hc⟩ hne
    have hnl : (q.lbz i).isinfB = false := by rw [hbeq]; exact hnu
    refine ⟨fun _ => hnu, fun _ => hnl, fun hv => ?_⟩
    exfalso
    split at hv <;> linarith
  · rw [if_neg hb1]
    by_cases hb2 : ((q.ubz i).isinfB = true) ∧ lam i > 0
    · rw [if_pos hb2]
      have hz : ¬((q.lbz i == q.ubz i) = true) := by
        intro hc
        have hbeq : q.lbz i = q.ubz i := by rwa [beq_iff_eq] at hc
        exact hne ⟨hc, hb2.1, by rw [hbeq]; exact hb2.1⟩
      rw [if_neg hz]
      exact ⟨fun hv => absurd hv (lt_irrefl 0), fun hv => absurd hv (lt_irrefl 0),
        fun _ => Bool.eq_false_iff.mpr hz⟩
    · rw [if_neg hb2]
      by_cases hb3 : ((q.lbz i).isinfB = true) ∧ lam i < 0
      · rw [if_pos hb3]
        have hz : ¬((q.lbz i == q.ubz i) = true) := by
          intro hc
          have hbeq : q.lbz i = q.ubz i := by rwa [beq_iff_eq] at hc
          exact hne ⟨hc, by rw [← hbeq]; exact hb3.1, hb3.1⟩
        rw [if_neg hz]
        exact ⟨fun hv => absurd hv (lt_irrefl 0), fun hv => absurd hv (lt_irrefl 0),
          fun _ => Bool.eq_false_iff.mpr hz⟩
      · rw [if_neg hb3]
        refine ⟨fun hv => ?_, fun hv => ?_, fun hv => ?_⟩
        · cases hc : (q.ubz i).isinfB
          · rfl
          · exact absurd ⟨hc, hv⟩ hb2
        · cases hc : (q.lbz i).isinfB
          · rfl
          · exact absurd ⟨hc, hv⟩ hb3
        · cases hc : (q.lbz i == q.ubz i)
          · rfl
          · exact absurd ⟨hc, hv⟩ hb1

theorem init_step_clauses (q : QpProb) (hd : 0 < q.dmin) (lam lam2 : ℕ → ℚ) (a : ℕ)
    (h : qp_init_step q (Except.ok lam) a = Except.ok lam2) :
    initClauses q lam2 a ∧ ∀ j, j ≠ a → lam2 j = lam j := by
  unfold qp_init_step at h
  split at h
  · exact Except.noConfusion h
  · rename_i lam1 hscr
    injection hscr with hscr
    subst hscr
    split at h
    · exact Except.noConfusion h
    rename_i hne
    injection h with h
    subst h
    constructor
    · unfold initClauses
    
      refine ⟨?_, ?_, ?_⟩
      · show 0 < (if a = a then qp_init_value q lam a else lam a) → _
        rw [if_pos rfl]
        exact (init_value_clauses q lam a hd hne).1
      · show (if a = a then qp_init_value q lam a else lam a) < 0 → _
        rw [if_pos rfl]
        exact (init_value_clauses q lam a hd hne).2.1
      · show (if a = a then qp_init_value q lam a else lam a) = 0 → _
        rw [if_pos rfl]
        exact (init_value_clauses q lam a hd hne).2.2
    · intro j hj
      show (if j = a then qp_init_value q lam a else lam j) = lam j
      rw [if_neg hj]

theorem init_fold_clauses (q : QpProb) (hd : 0 < q.dmin) :
    ∀ l : List ℕ, ∀ lam lam' : ℕ → ℚ,
      l.foldl (qp_init_step q) (Except.ok lam) = Except.ok lam' →
      (∀ j, j ∉ l → lam' j = lam j) ∧ (∀ a ∈ l, initClauses q lam' a) := by
  intro l
  induction l with
  | nil =>
    intro lam lam' h
    rw [List.foldl_nil] at h
    injection h with h
    subst h
    exact ⟨fun j _ => rfl, fun a ha => absurd ha (List.not_mem_nil a)⟩
  | cons a t ih =>
    intro lam lam' h
    rw [List.foldl_cons] at h
    rcases hstep : qp_init_step q (Except.ok lam) a with j | lam2
    · rw [hstep, init_fold_error] at h
      exact Except.noConfusion h
    · rw [hstep] at h
      obtain ⟨hcl, hother⟩ := init_step_clauses q hd lam lam2 a hstep
      obtain ⟨hout, hin⟩ := ih lam2 lam' h
      refine ⟨?_, ?_⟩
      · intro j hj
        have hj1 : j ∉ t := fun hc => hj (List.mem_cons_of_mem a hc)
        have hj2 : j ≠ a := fun hc => hj (hc ▸ List.mem_cons_self a t)
        rw [hout j hj1, hother j hj2]
      · intro b hb
        rcases List.mem_cons.mp hb with rfl | hbt
        · by_cases hat : b ∈ t
          · exact hin b hat
          · have he : lam' b = lam2 b := hout b hat
            unfold initClauses at hcl ⊢
            rw [he]
            exact hcl
        · exact hin b hbt

theorem init_signOk (q : QpProb) (hd : 0 < q.dmin) (lam' : ℕ → ℚ)
    (h : qp_init_lam q = Except.ok lam') :
    signOk q.data lam' := by
  unfold qp_init_lam at h
  obtain ⟨-, hin⟩ := init_fold_clauses q hd (List.range (q.nx + q.na)) q.lam0 lam' h
  intro i hi
  have hi' : i ∈ List.range (q.nx + q.na) := List.mem_range.mpr hi
  have hcl := hin i hi'
  unfold initClauses at hcl
  exact ⟨fun h0 => hcl.1 h0, fun h0 => hcl.2.1 h0, fun h0 => hcl.2.2 h0⟩

theorem clamp_sign_cases (lam0 lam1 dmin : ℚ) (nz : Bool) (hdmin : 0 < dmin) :
    (0 < (if (if nz = true ∧ (if (if lam0 > 0 then (1 : ℤ) else if lam0 < 0 then -1 else 0) < 0
            then lam1 > 0 else lam1 < 0)
          then -(if lam0 > 0 then (1 : ℤ) else if lam0 < 0 then -1 else 0)
          else (if lam0 > 0 then (1 : ℤ) else if lam0 < 0 then -1 else 0)) = -1
      then min lam1 (-dmin)
      else if (if nz = true ∧ (if (if lam0 > 0 then (1 : ℤ) else if lam0 < 0 then -1 else 0) < 0
            then lam1 > 0 else lam1 < 0)
          then -(if lam0 > 0 then (1 : ℤ) else if lam0 < 0 then -1 else 0)
          else (if lam0 > 0 then (1 : ℤ) else if lam0 < 0 then -1 else 0)) = 1
      then max lam1 dmin else 0)
      → (0 < lam0 ∨ (nz = true ∧ lam0 < 0)))
    ∧ ((if (if nz = true ∧ (if (if lam0 > 0 then (1 : ℤ) else if lam0 < 0 then -1 else 0) < 0
            then lam1 > 0 else lam1 < 0)
          then -(if lam0 > 0 then (1 : ℤ) else if lam0 < 0 then -1 else 0)
          else (if lam0 > 0 then (1 : ℤ) else if lam0 < 0 then -1 else 0)) = -1
      then min lam1 (-dmin)
      else if (if nz = true ∧ (if (if lam0 > 0 then (1 : ℤ) else if lam0 < 0 then -1 else 0) < 0
            then lam1 > 0 else lam1 < 0)
          then -(if lam0 > 0 then (1 : ℤ) else if lam0 < 0 then -1 else 0)
          else (if lam0 > 0 then (1 : ℤ) else if lam0 < 0 then -1 else 0)) = 1
      then max lam1 dmin else 0) < 0
      → (lam0 < 0 ∨ (nz = true ∧ 0 < lam0))) := by
  rcases lt_trichotomy lam0 0 with h | h | h
  · have h1 : ¬(lam0 > 0) := by linarith
    simp only [if_neg h1, if_pos h, if_pos (show (-1 : ℤ) < 0 by norm_num), neg_neg]
    by_cases hc : nz = true ∧ lam1 > 0
    · rw [if_pos hc, if_neg (by norm_num), if_pos rfl]
      constructor
      · intro _
        exact Or.inr ⟨hc.1, h⟩
      · intro hneg
        exfalso
        have hle := le_max_right lam1 dmin
        linarith
    · rw [if_neg hc, if_pos rfl]
      constructor
      · intro hpos
        exfalso
        have hle := min_le_right lam1 (-dmin)
        linarith
      · intro _
        exact Or.inl h
  · have h1 : ¬(lam0 > 0) := by rw [h]; exact lt_irrefl 0
    have h2 : ¬(lam0 < 0) := by rw [h]; exact lt_irrefl 0
    simp only [if_neg h1, if_neg h2, if_neg (show ¬((0 : ℤ) < 0) by norm_num), neg_zero,
      ite_self, if_neg (show ¬((0 : ℤ) = -1) by norm_num),
      if_neg (show ¬((0 : ℤ) = 1) by norm_num)]
    exact ⟨fun hc => absurd hc (lt_irrefl 0), fun hc => absurd hc (lt_irrefl 0)⟩
  · simp only [if_pos h, if_neg (show ¬((1 : ℤ) < 0) by norm_num)]
    by_cases hc : nz = true ∧ lam1 < 0
    · rw [if_pos hc, if_pos (show (-(1 : ℤ)) = -1 by norm_num)]
      constructor
      · intro hpos
        exfalso
        have hle := min_le_right lam1 (-dmin)
        linarith
      · intro _
        exact Or.inr ⟨hc.1, h⟩
    · rw [if_neg hc, if_neg (by norm_num), if_pos rfl]
      constructor
      · intro _
        exact Or.inl h
      · intro hneg
        exfalso
        have hle := le_max_right lam1 dmin
        linarith

theorem take_step_cases (p : QpData) (st : QpState) (hdmin : 0 < p.dmin) (i : ℕ)
    (hi : i < p.nzdim) :
    (0 < (casadi_qp_take_step p st).lam i
      → (0 < st.lam i ∨ (p.neverzero i = true ∧ st.lam i < 0)))
    ∧ ((casadi_qp_take_step p st).lam i < 0
      → (st.lam i < 0 ∨ (p.neverzero i = true ∧ 0 < st.lam i))) := by
  show (0 < (if i < p.nzdim then _ else st.lam i) → _)
    ∧ ((if i < p.nzdim then _ else st.lam i) < 0 → _)
  rw [if_pos hi]
  exact clamp_sign_cases (st.lam i) (st.lam i + st.tau * st.dlam i) p.dmin
    (p.neverzero i) hdmin

theorem take_step_signOk (p : QpData) (st : QpState) (hdmin : 0 < p.dmin)
    (hmask : ∀ i < p.nzdim, p.neverzero i = true
      → p.neverupper i = false ∧ p.neverlower i = false)
    (hsign : signOk p st.lam) :
    signOk p (casadi_qp_take_step p st).lam := by
  intro i hi
  obtain ⟨hpos, hneg⟩ := take_step_cases p st hdmin i hi
  refine ⟨fun h => ?_, fun h => ?_, fun h => ?_⟩
  · rcases hpos h with h0 | ⟨hnz, h0⟩
    · exact (hsign i hi).1 h0
    · exact (hmask i hi hnz).1
  · rcases hneg h with h0 | ⟨hnz, h0⟩
    · exact (hsign i hi).2.1 h0
    · exact (hmask i hi hnz).2
  · exact (hsign i hi).2.2 ((take_step_activity p st hdmin i).mp h)

theorem calc_dependent_signOk (p : QpData) (st : QpState) (hdmin : 0 < p.dmin)
    (hsign : signOk p st.lam) :
    signOk p (casadi_qp_calc_dependent p st).lam := by
  intro i hi
  rw [calc_dependent_lam]
  unfold qp_lam1
  by_cases hx : i < p.nx
  · rw [if_pos hx]
    rcases lt_trichotomy (st.lam i) 0 with h | h | h
    · rw [if_neg (by linarith), if_pos h]
      have hle := min_le_right (-(qp_infeas0 p st (qp_z1 p st) i)) (-p.dmin)
      refine ⟨fun hc => ?_, fun _ => (hsign i hi).2.1 h, fun hc => ?_⟩
      · exfalso; linarith
      · exfalso; rw [hc] at hle; linarith
    · rw [if_neg (by rw [h]; exact lt_irrefl 0), if_neg (by rw [h]; exact lt_irrefl 0)]
      exact hsign i hi
    · rw [if_pos h]
      have hle := le_max_right (-(qp_infeas0 p st (qp_z1 p st) i)) p.dmin
      refine ⟨fun _ => (hsign i hi).1 h, fun hc => ?_, fun hc => ?_⟩
      · exfalso; linarith
      · exfalso; rw [hc] at hle; linarith
  · rw [if_neg hx]
    exact hsign i hi

theorem flip_commit_signOk (p : QpData) (orc : QrOracle) (st : QpState) (ix : ℤ × ℤ)
    (hdmin : 0 < p.dmin) (hsign : signOk p st.lam) (h0 : 0 ≤ ix.1)
    (hcand : flipCandOk p ix.1 ix.2) :
    signOk p (qp_flip_commit p orc st ix).lam := by
  intro i hi
  by_cases hij : i = ix.1.toNat
  · have hval : (qp_flip_commit p orc st ix).lam i
        = (if ix.2 = 0 then 0 else if 0 < ix.2 then p.dmin else -p.dmin) := by
      show (if i = ix.1.toNat then _ else _) = _
      rw [if_pos hij]
    rw [hval]
    obtain ⟨hcu, hcl, hcz⟩ := hcand h0
    subst hij
    rcases lt_trichotomy ix.2 0 with hs | hs | hs
    · rw [if_neg (by omega), if_neg (by omega)]
      refine ⟨fun hc => ?_, fun _ => hcl hs, fun hc => ?_⟩
      · exfalso; linarith
      · exfalso; linarith
    · rw [if_pos hs]
      exact ⟨fun hc => absurd hc (lt_irrefl 0), fun hc => absurd hc (lt_irrefl 0),
        fun _ => hcz hs⟩
    · rw [if_neg (by omega), if_pos hs]
      refine ⟨fun _ => hcu hs, fun hc => ?_, fun hc => ?_⟩
      · exfalso; linarith
      · exfalso; linarith
  · rw [flip_commit_lam p orc st ix i hij]
    exact hsign i hi

theorem flip_signOk (p : QpData) (orc : QrOracle) (st : QpState)
    (index sign r_index r_sign : ℤ) (hdmin : 0 < p.dmin) (hsign : signOk p st.lam)
    (hcand : flipCandOk p (qp_flip_select p st index sign r_index r_sign).1
      (qp_flip_select p st index sign r_index r_sign).2) :
    signOk p (casadi_qp_flip p orc st index sign r_index r_sign).1.lam := by
  by_cases hcommit : 0 ≤ (qp_flip_select p st index sign r_index r_sign).1
  · unfold casadi_qp_flip
    rw [if_pos hcommit]
    show signOk p (casadi_qp_calc_dependent p
      (qp_flip_commit p orc st (qp_flip_select p st index sign r_index r_sign))).lam
    exact calc_dependent_signOk p _ hdmin
      (flip_commit_signOk p orc st _ hdmin hsign hcommit hcand)
  · unfold casadi_qp_flip
    rw [if_neg hcommit]
    exact hsign

/-- C1 (amended): the permitted-sign invariant — `λ_i > 0` only where an
upper bound exists, `λ_i < 0` only where a lower bound exists, `λ_i = 0`
only off equality constraints — is established by the initialization
correction loop of `eval`, and is preserved by `casadi_qp_calc_dependent`
and `casadi_qp_take_step` for every index and step length (given `DMIN > 0`
and masks consistent with the bounds, i.e. `neverzero_i` implying that both
bounds exist).  `casadi_qp_flip`, however, preserves it only under the
additional assumption that the candidate it commits respects the permitted
signs: the `du_index` search in the source has no `neverzero` guard, and
committing its candidate (always sign 0) on an equality constraint breaks
the third clause (counterexample `c1_counterexample`). -/
theorem c1_amended (q : QpProb) (p : QpData) (orc : QrOracle) (st : QpState)
    (lam' : ℕ → ℚ) (index sign r_index r_sign : ℤ)
    (hqdmin : 0 < q.dmin) (hdmin : 0 < p.dmin)
    (hmask : ∀ i < p.nzdim, p.neverzero i = true
      → p.neverupper i = false ∧ p.neverlower i = false)
    (hsign : signOk p st.lam)
    (hinit : qp_init_lam q = Except.ok lam')
    (hcand : flipCandOk p (qp_flip_select p st index sign r_index r_sign).1
      (qp_flip_select p st index sign r_index r_sign).2) :
    signOk q.data lam'
    ∧ signOk p (casadi_qp_calc_dependent p st).lam
    ∧ signOk p (casadi_qp_take_step p st).lam
    ∧ signOk p (casadi_qp_flip p orc st index sign r_index r_sign).1.lam :=
  ⟨init_signOk q hqdmin lam' hinit,
   calc_dependent_signOk p st hdmin hsign,
   take_step_signOk p st hdmin hmask hsign,
   flip_signOk p orc st index sign r_index r_sign hdmin hsign hcand⟩

theorem flip_select_start (p : QpData) (st : QpState) :
    qp_flip_select p st (-2) 0 (-2) 0 = (-2, 0) := by
  have hix : qp_flip_ix1 p st (-2) 0 (-2) 0 = (-2, 0) := by
    unfold qp_flip_ix1
    rw [if_neg]
    rintro ⟨h, -⟩
    exact absurd h (by decide)
  unfold qp_flip_select
  rw [hix, if_neg]
  rintro ⟨h, -⟩
  exact absurd h (by decide)

theorem c1_witness :
    0 < prob10.dmin ∧ 0 < p_w.dmin ∧ signOk p_w st_w.lam
    ∧ (signOk prob10.data (fun _ => 0)
       ∧ signOk p_w (casadi_qp_calc_dependent p_w st_w).lam
       ∧ signOk p_w (casadi_qp_take_step p_w st_w).lam
       ∧ signOk p_w (casadi_qp_flip p_w orcTriv st_w (-2) 0 (-2) 0).1.lam) := by
  have hq : (0:ℚ) < prob10.dmin := by norm_num [prob10]
  have hp : (0:ℚ) < p_w.dmin := by norm_num [p_w]
  have hs : signOk p_w st_w.lam := by
    intro i hi
    exact ⟨fun _ => rfl, fun _ => rfl, fun _ => rfl⟩
  have hmask : ∀ i < p_w.nzdim, p_w.neverzero i = true
      → p_w.neverupper i = false ∧ p_w.neverlower i = false := by
    intro i hi h
    simp [p_w] at h
  have hcand : flipCandOk p_w (qp_flip_select p_w st_w (-2) 0 (-2) 0).1
      (qp_flip_select p_w st_w (-2) 0 (-2) 0).2 := by
    intro h0
    rw [flip_select_start] at h0
    exact absurd h0 (by decide)
  exact ⟨hq, hp, hs,
    c1_amended prob10 p_w orcTriv st_w (fun _ => 0) (-2) 0 (-2) 0
      hq hp hmask hs prob10_lam hcand⟩
